import Mathlib

/-!
Verification of the Flutter-Assets-Generator extension (`src/extension.ts`)
against its natural-language specification.

The TypeScript source is shallowly embedded: strings are Lean `String`s
manipulated through explicit `List Char` operations mirroring the JavaScript
string/regex semantics used by the source (restricted to ASCII, which is the
character range all relevant string tests in the source depend on); the
filesystem is a finite tree of entries re-read at the start of a pass; the
VS Code coordinator state is an explicit state machine.
-/

/-! ## Character and string primitives

These model the exact JavaScript string operations the source uses:
`trim`, `split`, `join`, `startsWith`, `endsWith`, `replace` with the
specific regexes appearing in `extension.ts`. -/

/-- Whitespace recognized by `String.prototype.trim` (ASCII fragment). -/
def isWS (c : Char) : Bool :=
  c = ' ' || c = '\t' || c = '\n' || c = '\r'

/-- `trim`: drop whitespace from both ends of a character list. -/
def trimChars (l : List Char) : List Char :=
  ((l.dropWhile isWS).reverse.dropWhile isWS).reverse

/-- `String.prototype.trim`. -/
def trimS (s : String) : String := String.mk (trimChars s.data)

/-- `prefB pat l` holds when `l` starts with `pat`. -/
def prefB : List Char → List Char → Bool
  | [], _ => true
  | _ :: _, [] => false
  | p :: ps, c :: cs => p = c && prefB ps cs

/-- `String.prototype.startsWith`. -/
def startsWithS (s pre : String) : Bool := prefB pre.data s.data

/-- `String.prototype.endsWith`. -/
def endsWithS (s suf : String) : Bool := prefB suf.data.reverse s.data.reverse

/-- `String.prototype.split` with a one-character separator. -/
def splitOnC (sep : Char) : List Char → List (List Char)
  | [] => [[]]
  | c :: rest =>
    if c = sep then [] :: splitOnC sep rest
    else
      match splitOnC sep rest with
      | s :: ss => (c :: s) :: ss
      | [] => [[c]]

/-- `line.split('/')` as used by the pubspec pruning pass. -/
def splitSlashS (s : String) : List String := (splitOnC '/' s.data).map String.mk

/-- `content.split('\n')` as used by `syncPubspecYaml`. -/
def splitLinesS (s : String) : List String := (splitOnC '\n' s.data).map String.mk

/-- `Array.prototype.join` with a one-character separator. -/
def joinWithC (sep : Char) : List (List Char) → List Char
  | [] => []
  | [l] => l
  | l :: ls => l ++ sep :: joinWithC sep ls

/-- `newLines.join('\n')` as used by `syncPubspecYaml`. -/
def joinLinesS (ls : List String) : String :=
  String.mk (joinWithC '\n' (ls.map String.data))

/-- `relativePath.replace(/\\/g, '/')`. -/
def fwdSlash (s : String) : String :=
  String.mk (s.data.map (fun c => if c = '\\' then '/' else c))

/-- Remove every single-quote and double-quote character (the pruning pass
normalization `.replace` with the quote-class regex). -/
def removeQuotesS (s : String) : String :=
  String.mk (s.data.filter (fun c => !(c = '\x27' || c = '"')))

/-- `.replace(/^- /, '')`: remove one leading `"- "` if present. -/
def dropLeadDash (s : String) : String :=
  match s.data with
  | '-' :: ' ' :: rest => String.mk rest
  | _ => s

/-- `toUpperCase` on one character (ASCII range, the range exercised by the
source's camel-casing and class-name construction). -/
def upperC (c : Char) : Char :=
  match c with
  | 'a' => 'A' | 'b' => 'B' | 'c' => 'C' | 'd' => 'D' | 'e' => 'E'
  | 'f' => 'F' | 'g' => 'G' | 'h' => 'H' | 'i' => 'I' | 'j' => 'J'
  | 'k' => 'K' | 'l' => 'L' | 'm' => 'M' | 'n' => 'N' | 'o' => 'O'
  | 'p' => 'P' | 'q' => 'Q' | 'r' => 'R' | 's' => 'S' | 't' => 'T'
  | 'u' => 'U' | 'v' => 'V' | 'w' => 'W' | 'x' => 'X' | 'y' => 'Y'
  | 'z' => 'Z' | other => other

/-- `toLowerCase` on one character (ASCII range). -/
def lowerC (c : Char) : Char :=
  match c with
  | 'A' => 'a' | 'B' => 'b' | 'C' => 'c' | 'D' => 'd' | 'E' => 'e'
  | 'F' => 'f' | 'G' => 'g' | 'H' => 'h' | 'I' => 'i' | 'J' => 'j'
  | 'K' => 'k' | 'L' => 'l' | 'M' => 'm' | 'N' => 'n' | 'O' => 'o'
  | 'P' => 'p' | 'Q' => 'q' | 'R' => 'r' | 'S' => 's' | 'T' => 't'
  | 'U' => 'u' | 'V' => 'v' | 'W' => 'w' | 'X' => 'x' | 'Y' => 'y'
  | 'Z' => 'z' | other => other

/-- `name.charAt(0).toUpperCase() + name.slice(1)`. -/
def capitalizeS (s : String) : String :=
  match s.data with
  | [] => ""
  | c :: rest => String.mk (upperC c :: rest)

/-- `file.name.replace(/\.[^/.]+$/, "")`: strip a final dot-extension made of
one or more characters none of which is `.` or `/`. -/
def stripExtS (s : String) : String :=
  let rev := s.data.reverse
  let ext := rev.takeWhile (fun c => !(c = '.' || c = '/'))
  let rest := rev.dropWhile (fun c => !(c = '.' || c = '/'))
  match rest with
  | '.' :: rem => if ext.isEmpty then s else String.mk rem.reverse
  | _ => s

/-! ## Identifier derivation (`formatPropertyName`) -/

/-- The camel-casing regex `name.replace(/[-_]+(.)?/g, (_, c) => c ? c.toUpperCase() : '')`
as a left-to-right scan: a run of `-`/`_` followed by a character is replaced
by that character uppercased; a run at the end of the string contributes
nothing.  The flag records whether we are right after a delimiter run. -/
def camelScan : List Char → Bool → List Char
  | [], _ => []
  | c :: rest, afterDelim =>
    if c = '-' || c = '_' then camelScan rest true
    else if afterDelim then upperC c :: camelScan rest false
    else c :: camelScan rest false

/-- `.replace(/[^a-zA-Z0-9]/g, '')`. -/
def keepAlnum (l : List Char) : List Char := l.filter Char.isAlphanum

/-- `camelCase.charAt(0).toLowerCase() + camelCase.slice(1)` (on a non-empty
string; the source guards with `length > 0`). -/
def lowerFirst : List Char → List Char
  | [] => []
  | c :: rest => lowerC c :: rest

/-- The reserved-word list from `formatPropertyName`. -/
def dartKeywords : List String :=
  ["class", "switch", "return", "default", "break", "if", "else", "for",
   "var", "final", "const"]

/-- Step 2 of `formatPropertyName`: `if (/^\d/.test(camelCase)) camelCase = 'item' + camelCase`. -/
def identStage2 (l : List Char) : List Char :=
  if (l.headD 'a').isDigit = true then "item".data ++ l else l

/-- Step 3 of `formatPropertyName`: append `Asset` on a reserved word. -/
def identStage3 (l : List Char) : List Char :=
  if dartKeywords.contains (String.mk l) = true then l ++ "Asset".data else l

/-- Final step of `formatPropertyName`: `return camelCase || 'unknown'`. -/
def identOut (l : List Char) : String :=
  if l.isEmpty = true then "unknown" else String.mk l

/-- `formatPropertyName` from `extension.ts`:
camel-case delimiter runs, strip non-alphanumerics, lowercase the first
character, prefix `item` on a leading digit, append `Asset` on a reserved
word, and fall back to `unknown` for the empty result. -/
def formatPropertyName (name : String) : String :=
  identOut (identStage3 (identStage2 (lowerFirst (keepAlnum (camelScan name.data false)))))

theorem lowerC_keeps (c : Char) :
    lowerC c = c ∨
      ((lowerC c).isAlpha = true ∧ (lowerC c).isDigit = false ∧
        (lowerC c).isAlphanum = true) := by
  unfold lowerC
  split <;> first | (right; decide) | (left; rfl)

theorem lowerC_isAlphanum {c : Char} (h : c.isAlphanum = true) :
    (lowerC c).isAlphanum = true := by
  rcases lowerC_keeps c with he | hk
  · rw [he]; exact h
  · exact hk.2.2

theorem alnum_not_digit_alpha {c : Char} (h : c.isAlphanum = true)
    (hd : c.isDigit = false) : c.isAlpha = true := by
  simp only [Char.isAlphanum] at h
  rcases Bool.or_eq_true_iff.mp h with h1 | h1
  · exact h1
  · rw [h1] at hd; cases hd

theorem mem_keepAlnum_isAlphanum {c : Char} {l : List Char}
    (h : c ∈ keepAlnum l) : c.isAlphanum = true :=
  List.of_mem_filter h

theorem dartKeywords_no_upperA : ∀ k ∈ dartKeywords, 'A' ∉ k.data := by
  decide

theorem identStage2_ok (l : List Char) (hne : l ≠ [])
    (hall : ∀ x ∈ l, x.isAlphanum = true) :
    identStage2 l ≠ [] ∧ (∀ x ∈ identStage2 l, x.isAlphanum = true) ∧
      ((identStage2 l).headD ' ').isAlpha = true := by
  unfold identStage2
  cases l with
  | nil => exact absurd rfl hne
  | cons c rest =>
    have hc : c.isAlphanum = true := hall c (List.mem_cons_self c rest)
    simp only [List.headD_cons]
    by_cases hd : c.isDigit = true
    · rw [if_pos hd]
      refine ⟨by simp, ?_, rfl⟩
      intro x hx
      rcases List.mem_append.mp hx with hx | hx
      · fin_cases hx <;> decide
      · exact hall x hx
    · rw [if_neg hd]
      exact ⟨List.cons_ne_nil c rest, hall, by
        simp only [List.headD_cons]
        exact alnum_not_digit_alpha hc (Bool.of_not_eq_true hd)⟩

theorem identStage3_ok (l : List Char) (hne : l ≠ [])
    (hall : ∀ x ∈ l, x.isAlphanum = true)
    (hhead : (l.headD ' ').isAlpha = true) :
    identStage3 l ≠ [] ∧ (∀ x ∈ identStage3 l, x.isAlphanum = true) ∧
      ((identStage3 l).headD ' ').isAlpha = true ∧
      String.mk (identStage3 l) ∉ dartKeywords := by
  unfold identStage3
  by_cases hkw : dartKeywords.contains (String.mk l) = true
  · rw [if_pos hkw]
    have hA : 'A' ∈ l ++ "Asset".data :=
      List.mem_append.mpr (Or.inr (by decide))
    refine ⟨?_, ?_, ?_, ?_⟩
    · intro h; rw [h] at hA; cases hA
    · intro x hx
      rcases List.mem_append.mp hx with hx | hx
      · exact hall x hx
      · fin_cases hx <;> decide
    · cases l with
      | nil => exact absurd rfl hne
      | cons y ys => exact hhead
    · intro hmem
      exact dartKeywords_no_upperA _ hmem hA
  · rw [if_neg hkw]
    refine ⟨hne, hall, hhead, fun hmem => hkw ?_⟩
    exact List.elem_eq_true_of_mem hmem

theorem identOut_ok (l : List Char) (hne : l ≠ [])
    (hall : ∀ x ∈ l, x.isAlphanum = true)
    (hhead : (l.headD ' ').isAlpha = true)
    (hnk : String.mk l ∉ dartKeywords) :
    identOut l ≠ "" ∧ ((identOut l).data.headD ' ').isAlpha = true ∧
      (∀ c ∈ (identOut l).data, c.isAlphanum = true) ∧
      identOut l ∉ dartKeywords := by
  unfold identOut
  have hie : l.isEmpty = false := by
    cases l with
    | nil => exact absurd rfl hne
    | cons y ys => rfl
  rw [hie]
  simp only [Bool.false_eq_true, if_false]
  refine ⟨?_, hhead, hall, hnk⟩
  intro h
  exact hne (by simpa using congrArg String.data h)

/-- Claim C9: on every input, `formatPropertyName` returns a non-empty
string that starts with an ASCII letter, contains only ASCII alphanumeric
characters, and is not one of the eleven reserved words: the output is
always a well-formed identifier. -/
theorem c9_formatPropertyName_wellformed (name : String) :
    formatPropertyName name ≠ "" ∧
    ((formatPropertyName name).data.headD ' ').isAlpha = true ∧
    (∀ c ∈ (formatPropertyName name).data, c.isAlphanum = true) ∧
    formatPropertyName name ∉ dartKeywords := by
  cases hK : keepAlnum (camelScan name.data false) with
  | nil =>
    have he : formatPropertyName name = "unknown" := by
      unfold formatPropertyName
      rw [hK]
      decide
    rw [he]
    refine ⟨by decide, by decide, by decide, by decide⟩
  | cons c rest =>
    have he : formatPropertyName name =
        identOut (identStage3 (identStage2 (lowerFirst (c :: rest)))) := by
      unfold formatPropertyName
      rw [hK]
    rw [he]
    have hc : c.isAlphanum = true :=
      mem_keepAlnum_isAlphanum (by rw [hK]; exact List.mem_cons_self c rest)
    have hrest : ∀ x ∈ rest, x.isAlphanum = true := fun x hx =>
      mem_keepAlnum_isAlphanum (l := camelScan name.data false)
        (by rw [hK]; exact List.mem_cons_of_mem c hx)
    have hall1 : ∀ x ∈ lowerFirst (c :: rest), x.isAlphanum = true := by
      intro x hx
      rcases List.mem_cons.mp hx with rfl | hx
      · exact lowerC_isAlphanum hc
      · exact hrest x hx
    obtain ⟨ne2, all2, hd2⟩ :=
      identStage2_ok (lowerFirst (c :: rest)) (List.cons_ne_nil _ _) hall1
    obtain ⟨ne3, all3, hd3, nk3⟩ := identStage3_ok _ ne2 all2 hd2
    exact identOut_ok _ ne3 all3 hd3 nk3

/-- Claim C2 (counterexample): the identifier derived from `123abc` is not
`item123Abc`: no `-`/`_` delimiter occurs in `123abc`, so camel-casing leaves
it unchanged and the `item` prefix is attached to the all-lowercase
`123abc`. -/
theorem c2_counterexample : formatPropertyName "123abc" ≠ "item123Abc" := by
  decide

/-- Claim C2 (amended): `my-icon_1` maps to `myIcon1` and `class` maps to
`classAsset` as claimed, but `123abc` maps to `item123abc` (not `item123Abc`):
the leading-digit rule does run after camel-casing, yet camel-casing never
uppercases anything in `123abc` because the input contains no delimiter. -/
theorem c2_amended :
    formatPropertyName "my-icon_1" = "myIcon1" ∧
    formatPropertyName "class" = "classAsset" ∧
    formatPropertyName "123abc" = "item123abc" := by
  decide

/-! ## Filesystem model

A directory's contents are a finite list of entries in filesystem
enumeration order.  One sync pass re-reads this tree; it is the shared
snapshot both subsystems consume. -/

/-- A directory entry: a file, or a directory with its own entries. -/
inductive Entry where
  | file (name : String)
  | dir (name : String) (children : List Entry)

/-- The entry's filesystem name (`dirent.name`). -/
def Entry.nameOf : Entry → String
  | .file n => n
  | .dir n _ => n

/-- `dirent.isDirectory()`. -/
def Entry.isDirB : Entry → Bool
  | .file _ => false
  | .dir _ _ => true

/-- Children of a directory entry (empty for a file). -/
def Entry.childrenOf : Entry → List Entry
  | .file _ => []
  | .dir _ cs => cs

/-- The density-variant test `/^\d\.\dx$/.test(name)`: exactly a digit,
a literal dot, a digit, and the letter `x`. -/
def variantName (s : String) : Bool :=
  match s.data with
  | [d1, '.', d2, 'x'] => d1.isDigit && d2.isDigit
  | _ => false

/-- `toLowerCase` on a whole string (`file.name.toLowerCase()`). -/
def lowerS (s : String) : String := String.mk (s.data.map lowerC)

/-! ## Code generator (`generateClassRecursively`)

The source builds one string by appending per-line fragments.  The
embedding builds the list of emitted fragments (`GenLine`) and renders each
fragment to the exact text the source appends, so the generated string is
the concatenation of the rendered fragments. -/

/-- One fragment appended by `generateClassRecursively`. -/
inductive GenLine where
  | classHeader (className : String)
  | ctorLine (className : String)
  | nestedProp (nestedClassName propName : String)
  | stringProp (propName value : String) (svg : Bool)
  | closeClass

/-- The file filter of `generateClassRecursively`:
`item.isFile() && !item.name.startsWith('.')`. -/
def keepFileB (i : Entry) : Bool := !i.isDirB && !(startsWithS i.nameOf ".")

/-- The directory filter of `generateClassRecursively`:
`item.isDirectory() && !/^\d\.\dx$/.test(item.name)`. -/
def keepDirB (i : Entry) : Bool := i.isDirB && !(variantName i.nameOf)

/-- The asset-path value emitted for a file:
`'assets/${forwardSlashPath}/${file.name}'`. -/
def assetValue (relativePath fileName : String) : String :=
  "assets/" ++ fwdSlash relativePath ++ "/" ++ fileName

/-- The non-recursive part of one `generateClassRecursively` call: the class
header, the const constructor, one class-valued property per kept
subdirectory, one string-valued property per kept file, and the closing
brace. -/
def headerProps (items : List Entry) (relativePath className : String) : List GenLine :=
  let dirs := items.filter keepDirB
  let files := items.filter keepFileB
  [GenLine.classHeader className, GenLine.ctorLine className] ++
  dirs.map (fun d =>
    GenLine.nestedProp (className ++ capitalizeS d.nameOf) (formatPropertyName d.nameOf)) ++
  files.map (fun f =>
    GenLine.stringProp (formatPropertyName (stripExtS f.nameOf))
      (assetValue relativePath f.nameOf)
      (endsWithS (lowerS f.nameOf) ".svg")) ++
  [GenLine.closeClass]

/-- The recursive part of `generateClassRecursively`: for each kept
subdirectory, in order, the full fragment list of the recursive call
(whose own fragments are a header block followed by its nested content). -/
def nestedLines : List Entry → String → String → List GenLine
  | [], _, _ => []
  | .file _ :: rest, rel, cls => nestedLines rest rel cls
  | .dir n cs :: rest, rel, cls =>
    (if variantName n then [] else
      headerProps cs (rel ++ "/" ++ n) (cls ++ capitalizeS n) ++
      nestedLines cs (rel ++ "/" ++ n) (cls ++ capitalizeS n)) ++
    nestedLines rest rel cls

/-- All fragments emitted by one `generateClassRecursively(dirPath,
relativePath, className)` call: `classContent` then
`nestedClassesContent`. -/
def genLinesDir (items : List Entry) (relativePath className : String) : List GenLine :=
  headerProps items relativePath className ++ nestedLines items relativePath className

/-- The exact text of one fragment as appended by the source. -/
def renderGenLine : GenLine → String
  | .classHeader cls => "class " ++ cls ++ " \x7b\n"
  | .ctorLine cls => "  const " ++ cls ++ "();\n\n"
  | .nestedProp ncls prop => "  final " ++ ncls ++ " " ++ prop ++ " = const " ++ ncls ++ "();\n"
  | .stringProp prop value svg =>
    "  final String " ++ prop ++ " = \x27" ++ value ++ "\x27;" ++
      (if svg then " // SVG File" else "") ++ "\n"
  | .closeClass => "\x7d\n\n"

/-- `generateClassRecursively` as a string: the concatenation of the
rendered fragments. -/
def generateClassRecursively (items : List Entry) (relativePath className : String) : String :=
  String.join ((genLinesDir items relativePath className).map renderGenLine)

/-! ## Manifest directory scan (`scanDirs` inside `syncPubspecYaml`) -/

/-- The manifest line pushed for one directory: `- assets/${forwardSlashPath}/`. -/
def pubspecEntryLine (relPath : String) : String :=
  "- assets/" ++ fwdSlash relPath ++ "/"

/-- The recursion of `scanDirs` over a directory's entries: each
non-variant subdirectory contributes its own line followed by its
subtree's lines. -/
def scanChildren : List Entry → String → List String
  | [], _ => []
  | .file _ :: rest, rel => scanChildren rest rel
  | .dir n cs :: rest, rel =>
    (if variantName n then [] else
      pubspecEntryLine (rel ++ "/" ++ n) :: scanChildren cs (rel ++ "/" ++ n)) ++
    scanChildren rest rel

/-- `scanDirs(dirPath, relPath)`: the directory's own line, then the lines
of its subtree. -/
def scanDirs (cs : List Entry) (rel : String) : List String :=
  pubspecEntryLine rel :: scanChildren cs rel

/-- `requiredAssets` collected by `syncPubspecYaml`: `scanDirs` applied to
every root directory of the asset root (files at the root are skipped by
the `isDirectory()` filter; root directories are not variant-filtered). -/
def requiredAssets : List Entry → List String
  | [] => []
  | .file _ :: rest => requiredAssets rest
  | .dir n cs :: rest => scanDirs cs n ++ requiredAssets rest

/-! ## Variant-directory exclusion (C6) and dot-directory inclusion (C10) -/

@[simp] theorem nameOf_file (n : String) : (Entry.file n).nameOf = n := rfl

@[simp] theorem nameOf_dir (n : String) (cs : List Entry) :
    (Entry.dir n cs).nameOf = n := rfl

@[simp] theorem isDirB_file (n : String) : (Entry.file n).isDirB = false := rfl

@[simp] theorem isDirB_dir (n : String) (cs : List Entry) :
    (Entry.dir n cs).isDirB = true := rfl

@[simp] theorem keepDirB_file (n : String) : keepDirB (Entry.file n) = false := rfl

@[simp] theorem keepDirB_dir (n : String) (cs : List Entry) :
    keepDirB (Entry.dir n cs) = !variantName n := rfl

@[simp] theorem keepFileB_file (n : String) :
    keepFileB (Entry.file n) = !startsWithS n "." := rfl

@[simp] theorem keepFileB_dir (n : String) (cs : List Entry) :
    keepFileB (Entry.dir n cs) = false := rfl

/-- The same tree with every variant-named directory (pattern digit, dot,
digit, `x`) deleted, at every depth. -/
def stripVariants : List Entry → List Entry
  | [] => []
  | .file n :: rest => .file n :: stripVariants rest
  | .dir n cs :: rest =>
    (if variantName n then [] else [Entry.dir n (stripVariants cs)]) ++ stripVariants rest

theorem filter_keepFileB_stripVariants (items : List Entry) :
    (stripVariants items).filter keepFileB = items.filter keepFileB := by
  induction items using stripVariants.induct with
  | case1 => simp [stripVariants]
  | case2 n rest ih => simp [stripVariants, List.filter_cons, ih]
  | case3 n cs rest ih1 ih2 =>
    by_cases hv : variantName n = true
    · simp [stripVariants, hv, List.filter_cons, ih2]
    · simp [stripVariants, hv, List.filter_cons, ih2]

theorem filter_keepDirB_map_stripVariants {α : Type} (items : List Entry)
    (f : String → α) :
    ((stripVariants items).filter keepDirB).map (fun d => f d.nameOf) =
      (items.filter keepDirB).map (fun d => f d.nameOf) := by
  induction items using stripVariants.induct with
  | case1 => simp [stripVariants]
  | case2 n rest ih => simp [stripVariants, List.filter_cons, ih]
  | case3 n cs rest ih1 ih2 =>
    by_cases hv : variantName n = true
    · simp [stripVariants, hv, List.filter_cons, ih2]
    · simp [stripVariants, hv, List.filter_cons, ih2]

theorem headerProps_stripVariants (items : List Entry) (rel cls : String) :
    headerProps (stripVariants items) rel cls = headerProps items rel cls := by
  unfold headerProps
  rw [filter_keepFileB_stripVariants]
  have h1 := filter_keepDirB_map_stripVariants items
    (fun n => GenLine.nestedProp (cls ++ capitalizeS n) (formatPropertyName n))
  simp only [List.append_cancel_right_eq, List.append_cancel_left_eq]
  exact h1

theorem nestedLines_stripVariants (items : List Entry) (rel cls : String) :
    nestedLines (stripVariants items) rel cls = nestedLines items rel cls := by
  induction items, rel, cls using nestedLines.induct with
  | case1 rel cls => simp [stripVariants]
  | case2 n rest rel cls ih => simpa [stripVariants, nestedLines] using ih
  | case3 n cs rest rel cls ihcs ihrest =>
    simp only [stripVariants]
    by_cases hv : variantName n = true
    · simp [hv, nestedLines, ihrest]
    · simp [hv, nestedLines, headerProps_stripVariants, ihcs, ihrest]

theorem scanChildren_stripVariants (items : List Entry) (rel : String) :
    scanChildren (stripVariants items) rel = scanChildren items rel := by
  induction items, rel using scanChildren.induct with
  | case1 rel => simp [stripVariants]
  | case2 n rest rel ih => simpa [stripVariants, scanChildren] using ih
  | case3 n cs rest rel ihcs ihrest =>
    simp only [stripVariants]
    by_cases hv : variantName n = true
    · simp [hv, scanChildren, ihrest]
    · simp [hv, scanChildren, ihcs, ihrest]

/-- Claim C6: a directory whose name matches the scale-suffix pattern
(digit, dot, digit, `x`), placed anywhere under a category, is invisible to
both subsystems: deleting every such directory (and its whole subtree)
changes neither the generated fragments of the category nor the manifest
lines collected under the category, so a variant directory produces no
nested class, no manifest entry, and is never recursed into. -/
theorem c6_variant_dirs_excluded (items : List Entry) (rel cls : String) :
    genLinesDir items rel cls = genLinesDir (stripVariants items) rel cls ∧
    scanChildren items rel = scanChildren (stripVariants items) rel := by
  refine ⟨?_, (scanChildren_stripVariants items rel).symm⟩
  unfold genLinesDir
  rw [headerProps_stripVariants, nestedLines_stripVariants]

theorem variantName_of_dot {dn : String} (h : startsWithS dn "." = true) :
    variantName dn = false := by
  cases hd : dn.data with
  | nil =>
    rw [startsWithS, hd] at h
    exact absurd h (by decide)
  | cons c cs =>
    rw [startsWithS, hd] at h
    have hc : c = '.' := by
      have h2 : '.' = c := by simpa [prefB] using h
      exact h2.symm
    unfold variantName
    rw [hd, hc]
    split
    · next d1 d2 heq =>
      have h1 : d1 = '.' := by
        injection heq with ha hb
        exact ha.symm
      rw [h1]
      rfl
    · rfl

theorem nestedLines_append (l1 l2 : List Entry) (rel cls : String) :
    nestedLines (l1 ++ l2) rel cls = nestedLines l1 rel cls ++ nestedLines l2 rel cls := by
  induction l1 with
  | nil => simp [nestedLines]
  | cons e t ih => cases e <;> simp [nestedLines, ih]

theorem scanChildren_append (l1 l2 : List Entry) (rel : String) :
    scanChildren (l1 ++ l2) rel = scanChildren l1 rel ++ scanChildren l2 rel := by
  induction l1 with
  | nil => simp [scanChildren]
  | cons e t ih => cases e <;> simp [scanChildren, ih]

/-- Claim C10: the dotfile exclusion applies only to files: a directory
whose name starts with `.` is processed like any other non-variant
subdirectory — the generator emits its class-valued property and the whole
fragment list of its recursive call, and the manifest scan emits its entry
line and the whole line list of its subtree. -/
theorem c10_dot_directory_recursed (items dcs : List Entry) (rel cls dn : String)
    (hmem : Entry.dir dn dcs ∈ items)
    (hdot : startsWithS dn "." = true) :
    GenLine.nestedProp (cls ++ capitalizeS dn) (formatPropertyName dn) ∈
      genLinesDir items rel cls ∧
    List.Sublist (genLinesDir dcs (rel ++ "/" ++ dn) (cls ++ capitalizeS dn))
      (genLinesDir items rel cls) ∧
    pubspecEntryLine (rel ++ "/" ++ dn) ∈ scanChildren items rel ∧
    List.Sublist (scanDirs dcs (rel ++ "/" ++ dn)) (scanChildren items rel) := by
  have hv : variantName dn = false := variantName_of_dot hdot
  obtain ⟨l1, l2, rfl⟩ := List.append_of_mem hmem
  have hnl : nestedLines (l1 ++ Entry.dir dn dcs :: l2) rel cls =
      nestedLines l1 rel cls ++
        ((headerProps dcs (rel ++ "/" ++ dn) (cls ++ capitalizeS dn) ++
          nestedLines dcs (rel ++ "/" ++ dn) (cls ++ capitalizeS dn)) ++
          nestedLines l2 rel cls) := by
    rw [nestedLines_append]
    rw [nestedLines]
    simp [hv]
  have hsc : scanChildren (l1 ++ Entry.dir dn dcs :: l2) rel =
      scanChildren l1 rel ++
        ((pubspecEntryLine (rel ++ "/" ++ dn) ::
          scanChildren dcs (rel ++ "/" ++ dn)) ++ scanChildren l2 rel) := by
    rw [scanChildren_append]
    rw [scanChildren]
    simp [hv]
  refine ⟨?_, ?_, ?_, ?_⟩
  · unfold genLinesDir headerProps
    have hdmem : Entry.dir dn dcs ∈ (l1 ++ Entry.dir dn dcs :: l2).filter keepDirB :=
      List.mem_filter.mpr ⟨by simp, by simp [hv]⟩
    refine List.mem_append.mpr (Or.inl ?_)
    refine List.mem_append.mpr (Or.inl ?_)
    refine List.mem_append.mpr (Or.inl ?_)
    refine List.mem_append.mpr (Or.inr ?_)
    exact List.mem_map.mpr ⟨Entry.dir dn dcs, hdmem, by simp⟩
  · unfold genLinesDir
    rw [hnl]
    have h1 : List.Sublist
        (genLinesDir dcs (rel ++ "/" ++ dn) (cls ++ capitalizeS dn))
        ((headerProps dcs (rel ++ "/" ++ dn) (cls ++ capitalizeS dn) ++
          nestedLines dcs (rel ++ "/" ++ dn) (cls ++ capitalizeS dn)) ++
          nestedLines l2 rel cls) :=
      List.sublist_append_left _ _
    exact ((h1.trans (List.sublist_append_right _ _)).trans
      (List.sublist_append_right _ _))
  · rw [hsc]
    refine List.mem_append.mpr (Or.inr ?_)
    refine List.mem_append.mpr (Or.inl ?_)
    exact List.mem_cons_self _ _
  · rw [hsc]
    have h1 : List.Sublist (scanDirs dcs (rel ++ "/" ++ dn))
        ((pubspecEntryLine (rel ++ "/" ++ dn) ::
          scanChildren dcs (rel ++ "/" ++ dn)) ++ scanChildren l2 rel) :=
      List.sublist_append_left _ _
    exact h1.trans (List.sublist_append_right _ _)

/-- Witness for C10 at a concrete tree: the dot-directory `.hidden` inside
the `images` category yields its class-valued property. -/
theorem c10_witness :
    GenLine.nestedProp ("_Image" ++ capitalizeS ".hidden") (formatPropertyName ".hidden") ∈
      genLinesDir [Entry.dir ".hidden" [Entry.file "a.png"]] "images" "_Image" :=
  (c10_dot_directory_recursed _ _ _ _ _ (List.mem_cons_self _ _) (by decide)).1

/-! ## Generated-file set and stale-file cleanup (`generateAllAssetsClasses`) -/

/-- `rootFolder.endsWith('s') ? rootFolder.slice(0, -1) : rootFolder`. -/
def baseNameOf (s : String) : String :=
  if endsWithS s "s" = true then String.mk s.data.dropLast else s

/-- The part file name `${baseName}.dart` of a category. -/
def partFileNameOf (rootFolder : String) : String := baseNameOf rootFolder ++ ".dart"

/-- The private root class name of a category:
`` `_${baseName.charAt(0).toUpperCase() + baseName.slice(1)}` ``. -/
def rootClassNameOf (rootFolder : String) : String :=
  "_" ++ capitalizeS (baseNameOf rootFolder)

/-- `fs.readdirSync(assetsPath).filter(d => d.isDirectory())`. -/
def rootDirsOf (t : List Entry) : List Entry := t.filter Entry.isDirB

/-- The `generatedFiles` array accumulated by `generateAllAssetsClasses`:
`'assets_app.dart'` plus one part file name per category. -/
def generatedFilesList (t : List Entry) : List String :=
  "assets_app.dart" :: (rootDirsOf t).map (fun d => partFileNameOf d.nameOf)

/-- The content of one category's part file. -/
def partContentOf (d : Entry) : String :=
  "part of \x27assets_app.dart\x27;\n\n" ++
  generateClassRecursively d.childrenOf d.nameOf (rootClassNameOf d.nameOf)

/-- The `part '...';` declarations of the aggregator. -/
def partsDeclOf (t : List Entry) : String :=
  String.join ((rootDirsOf t).map (fun d => "part \x27" ++ partFileNameOf d.nameOf ++ "\x27;\n"))

/-- The aggregator's singleton properties. -/
def appAssetsBodyOf (t : List Entry) : String :=
  String.join ((rootDirsOf t).map (fun d =>
    "  static const " ++ formatPropertyName d.nameOf ++ " = " ++
      rootClassNameOf d.nameOf ++ "();\n"))

/-- The aggregator file `assets_app.dart`. -/
def mainContentOf (t : List Entry) : String :=
  partsDeclOf t ++ "\n" ++ "class AssetsApp \x7b\n" ++ "  AssetsApp._();\n\n" ++
    appAssetsBodyOf t ++ "\x7d\n"

/-- The `(fileName, content)` pairs written by one `generateAllAssetsClasses`
pass, in write order: each category's part file, then the aggregator. -/
def generateAllAssetsClasses (t : List Entry) : List (String × String) :=
  (rootDirsOf t).map (fun d => (partFileNameOf d.nameOf, partContentOf d)) ++
  [("assets_app.dart", mainContentOf t)]

/-- `fs.writeFileSync` on a directory listing: overwrite in place or append
a new name. -/
def writeFile (dirListing : List String) (f : String) : List String :=
  if dirListing.contains f then dirListing else dirListing ++ [f]

/-- The output directory listing right after the pass's writes
(`fs.readdirSync(outDir)` in the cleanup loop sees it). -/
def afterWrites (initial : List String) (t : List Entry) : List String :=
  ((rootDirsOf t).map (fun d => partFileNameOf d.nameOf) ++
    ["assets_app.dart"]).foldl writeFile initial

/-- The cleanup loop: `if (!generatedFiles.includes(file) && file.endsWith('.dart')) unlink`. -/
def cleanupPass (existing generated : List String) : List String :=
  existing.filter (fun f => !(!(generated.contains f) && endsWithS f ".dart"))

/-- The output directory listing at the end of one pass. -/
def outDirAfterPass (initial : List String) (t : List Entry) : List String :=
  cleanupPass (afterWrites initial t) (generatedFilesList t)

theorem data_append (s t : String) : (s ++ t).data = s.data ++ t.data := by
  cases s; cases t; rfl

theorem prefB_append_self (p rest : List Char) : prefB p (p ++ rest) = true := by
  induction p with
  | nil => rfl
  | cons c cs ih => simp [prefB, ih]

theorem endsWithS_append_self (b suf : String) : endsWithS (b ++ suf) suf = true := by
  unfold endsWithS
  rw [data_append, List.reverse_append]
  exact prefB_append_self _ _

theorem mem_writeFile (d : List String) (x f : String) :
    f ∈ writeFile d x ↔ f ∈ d ∨ f = x := by
  unfold writeFile
  by_cases hc : d.contains x = true
  · have hx : x ∈ d := by simpa using hc
    rw [if_pos hc]
    constructor
    · exact fun h => Or.inl h
    · rintro (h | rfl)
      · exact h
      · exact hx
  · rw [if_neg hc]
    simp

theorem mem_foldl_writeFile (L : List String) (init : List String) (f : String) :
    f ∈ L.foldl writeFile init ↔ f ∈ init ∨ f ∈ L := by
  induction L generalizing init with
  | nil => simp
  | cons x xs ih =>
    rw [List.foldl_cons, ih, mem_writeFile]
    simp [or_assoc]

/-- Claim C7: after the writes of a pass, the cleanup deletes exactly the
`.dart` files not among the pass's emitted filenames, and files with any
other extension survive iff they were already there. -/
theorem c7_stale_dart_cleanup (initial : List String) (t : List Entry) (f : String) :
    (endsWithS f ".dart" = true → f ∉ generatedFilesList t →
      f ∉ outDirAfterPass initial t) ∧
    (endsWithS f ".dart" = false →
      (f ∈ outDirAfterPass initial t ↔ f ∈ initial)) := by
  constructor
  · intro hd hg hmem
    obtain ⟨-, hp⟩ := List.mem_filter.mp hmem
    have hcon : (generatedFilesList t).contains f = false := by
      by_cases h : (generatedFilesList t).contains f = true
      · exact absurd (by simpa using h) hg
      · exact Bool.of_not_eq_true h
    rw [hcon, hd] at hp
    exact absurd hp (by decide)
  · intro hd
    unfold outDirAfterPass cleanupPass
    rw [List.mem_filter]
    constructor
    · rintro ⟨hmem, -⟩
      rcases (mem_foldl_writeFile _ _ _).mp hmem with h | h
      · exact h
      · exfalso
        rcases List.mem_append.mp h with h | h
        · obtain ⟨d, -, rfl⟩ := List.mem_map.mp h
          rw [partFileNameOf, endsWithS_append_self] at hd
          cases hd
        · have : f = "assets_app.dart" := by simpa using h
          rw [this] at hd
          exact absurd hd (by decide)
    · intro hmem
      refine ⟨(mem_foldl_writeFile _ _ _).mpr (Or.inl hmem), ?_⟩
      rw [hd]
      simp

/-- Witness for C7 at a concrete directory listing: the stale `old.dart`
is deleted by the pass over a single `images` category. -/
theorem c7_witness :
    "old.dart" ∉
      outDirAfterPass ["old.dart", "keep.txt"]
        [Entry.dir "images" [Entry.file "logo.png"]] :=
  (c7_stale_dart_cleanup ["old.dart", "keep.txt"]
    [Entry.dir "images" [Entry.file "logo.png"]] "old.dart").1
    (by decide) (by decide)

/-! ## Sync coordinator: debounce timer and re-entrancy guard -/

/-- The coordinator's state when an event is handled: the `isSyncing`
re-entrancy guard, the `autoSync` configuration value, and whether the
workspace and its asset root exist. -/
structure CoordState where
  isSyncing : Bool
  autoSync : Bool
  assetsExists : Bool
deriving DecidableEq

/-- The callbacks the single-threaded event loop can run: the fired 600ms
debounce timer, the explicit force-generate command, and the 2-second
status-reset callback scheduled after a successful pass. -/
inductive CEvent where
  | timerFire
  | forceCmd
  | statusReset
deriving DecidableEq

/-- What handling one event did. -/
inductive CAction where
  | ranPass (ok : Bool)
  | cleared
  | noop
deriving DecidableEq

/-- `runFullSync(uri, force)`: the `autoSync`/`force` gate, the `isSyncing`
re-entrancy guard, the workspace/asset-root existence checks, then the
synchronous pass body (`ok` records whether it threw).  On success the
guard stays set until the scheduled status reset; on failure the catch
handler clears it immediately. -/
def runFullSync (s : CoordState) (force ok : Bool) : CoordState × CAction :=
  if !s.autoSync && !force then (s, CAction.noop)
  else if s.isSyncing then (s, CAction.noop)
  else if !s.assetsExists then (s, CAction.noop)
  else if ok then ({ s with isSyncing := true }, CAction.ranPass true)
  else ({ s with isSyncing := false }, CAction.ranPass false)

/-- One event handled by the coordinator.  The debounce timer's callback is
`if (!isSyncing) runFullSync(uri)`; the force command calls
`runFullSync(uri, true)` directly; the status-reset callback clears the
guard. -/
def coordStep (s : CoordState) (e : CEvent) (ok : Bool) : CoordState × CAction :=
  match e with
  | CEvent.timerFire => if s.isSyncing then (s, CAction.noop) else runFullSync s false ok
  | CEvent.forceCmd => runFullSync s true ok
  | CEvent.statusReset => ({ s with isSyncing := false }, CAction.cleared)

/-- The `(state before, event, action, state after)` record of a whole
event sequence. -/
def coordTrace (s : CoordState) :
    List (CEvent × Bool) → List (CoordState × CEvent × CAction × CoordState)
  | [] => []
  | (e, ok) :: rest =>
    (s, e, (coordStep s e ok).2, (coordStep s e ok).1) ::
      coordTrace (coordStep s e ok).1 rest

theorem coordStep_facts (s : CoordState) (e : CEvent) (ok : Bool) :
    ((∃ b, (coordStep s e ok).2 = CAction.ranPass b) → s.isSyncing = false) ∧
    (s.isSyncing = true → e = CEvent.timerFire →
      (coordStep s e ok).1 = s ∧ (coordStep s e ok).2 = CAction.noop) ∧
    ((coordStep s e ok).2 = CAction.ranPass true →
      (coordStep s e ok).1.isSyncing = true) ∧
    ((coordStep s e ok).2 = CAction.ranPass false →
      (coordStep s e ok).1.isSyncing = false) := by
  obtain ⟨g, au, ae⟩ := s
  cases g <;> cases au <;> cases ae <;> cases e <;> cases ok <;>
    simp [coordStep, runFullSync]

/-- Claim C8: passes are strictly sequential.  In every trace of handled
events: a pass body only ever runs from a state whose re-entrancy guard is
clear; the debounce timer firing while the guard is set changes nothing and
performs no pass; a successful pass leaves the guard set (until the
status-reset callback clears it); a failed pass clears the guard before
returning. -/
theorem c8_sequential_passes (s0 : CoordState) (evs : List (CEvent × Bool))
    (pre : CoordState) (e : CEvent) (a : CAction) (post : CoordState)
    (h : (pre, e, a, post) ∈ coordTrace s0 evs) :
    ((∃ b, a = CAction.ranPass b) → pre.isSyncing = false) ∧
    (pre.isSyncing = true → e = CEvent.timerFire →
      post = pre ∧ a = CAction.noop) ∧
    (a = CAction.ranPass true → post.isSyncing = true) ∧
    (a = CAction.ranPass false → post.isSyncing = false) := by
  induction evs generalizing s0 with
  | nil => cases h
  | cons p rest ih =>
    obtain ⟨e0, ok0⟩ := p
    rw [coordTrace] at h
    rcases List.mem_cons.mp h with he | ht
    · injection he with hpre hrest
      injection hrest with hev hrest2
      injection hrest2 with hact hpost
      subst hpre
      subst hev
      subst hact
      subst hpost
      exact coordStep_facts _ _ _
    · exact ih _ ht

/-- Witness for C8 on a concrete trace: the first timer fire runs a pass
from a clear guard. -/
theorem c8_witness :
    ({ isSyncing := false, autoSync := true, assetsExists := true } :
      CoordState).isSyncing = false :=
  (c8_sequential_passes
    { isSyncing := false, autoSync := true, assetsExists := true }
    [(CEvent.timerFire, true)]
    { isSyncing := false, autoSync := true, assetsExists := true }
    CEvent.timerFire (CAction.ranPass true)
    { isSyncing := true, autoSync := true, assetsExists := true }
    (by decide)).1 ⟨true, rfl⟩

/-! ## Manifest synchronizer (`syncPubspecYaml`) -/

/-- The pruning-pass path normalization:
`trimmed.replace(/^- /, '').replace` (quote class) `.trim()`. -/
def stripEntryPath (trimmed : String) : String :=
  trimS (removeQuotesS (dropLeadDash trimmed))

/-- The keep-side of the pruning `filter`: a line is dropped exactly when
its trimmed text starts with `- assets/`, splits on `/` into more than two
pieces, and the referenced path does not exist on disk. -/
def keepLineB (ex : String → Bool) (line : String) : Bool :=
  let trimmed := trimS line
  if startsWithS trimmed "- assets/" && decide ((splitSlashS trimmed).length > 2) then
    ex (stripEntryPath trimmed)
  else true

/-- The pruning pass over the whole file. -/
def pruneLines (ex : String → Bool) (lines : List String) : List String :=
  lines.filter (keepLineB ex)

/-- `Array.prototype.findIndex`: the index of the first match, if any
(`-1` becomes `none`). -/
def findIdxO {α : Type} (p : α → Bool) : List α → Option Nat
  | [] => none
  | x :: rest => if p x then some 0 else (findIdxO p rest).map (· + 1)

/-- `lines.findIndex(l => l.startsWith('flutter:'))` with the fallback that
pushes `'', 'flutter:', '  assets:'` when the marker is absent; yields the
line list and `flutterIndex`. -/
def ensureFlutter (lines : List String) : List String × Nat :=
  match findIdxO (fun l => startsWithS l "flutter:") lines with
  | some i => (lines, i)
  | none => (lines ++ ["", "flutter:", "  assets:"], lines.length + 1)

/-- `l.match(/^ {2}assets:/)`. -/
def isAssetsHeader (l : String) : Bool := startsWithS l "  assets:"

/-- `lines.findIndex((l, i) => i > flutterIndex && l.match(/^ {2}assets:/))`
with the fallback that splices `'  assets:'` right after the section
marker; yields the line list and `assetsIndex`. -/
def ensureAssets (p : List String × Nat) : List String × Nat :=
  match findIdxO isAssetsHeader (p.1.drop (p.2 + 1)) with
  | some k => (p.1, p.2 + 1 + k)
  | none => (List.insertIdx (p.2 + 1) "  assets:" p.1, p.2 + 1)

/-- The insertion loop: for each required line not found among the file's
trimmed lines (`existing`, computed before the loop starts), splice
`'    ' + reqAsset` at `assetsIndex + 1 + addedCount`. -/
def insertMissing (reqs existing : List String) (pos added : Nat)
    (lines : List String) : List String :=
  match reqs with
  | [] => lines
  | r :: rs =>
    if existing.contains r then insertMissing rs existing pos added lines
    else
      insertMissing rs existing pos (added + 1)
        (List.insertIdx (pos + added) ("    " ++ r) lines)

/-- `syncPubspecYaml`'s transformation of the pubspec's line list:
locate or create the `flutter:` and `  assets:` markers, insert missing
required lines, then prune. -/
def syncPubspecLines (required : List String) (ex : String → Bool)
    (lines0 : List String) : List String :=
  let p := ensureAssets (ensureFlutter lines0)
  let existing := p.1.map trimS
  pruneLines ex (insertMissing required existing (p.2 + 1) 0 p.1)

/-- Look up an entry by name (first match; filesystem names are unique). -/
def findEntryByName (t : List Entry) (seg : List Char) : Option Entry :=
  match t with
  | [] => none
  | e :: rest => if e.nameOf.data = seg then some e else findEntryByName rest seg

/-- Resolve a relative path, already split into segments, under a list of
entries: an exhausted segment list or a lone empty segment (a trailing
slash) names the current directory; a file matches only as the final
segment without a trailing slash. -/
def resolveRel : List Entry → List (List Char) → Bool
  | _, [] => true
  | _, [[]] => true
  | t, seg :: rest =>
    match findEntryByName t seg with
    | some (Entry.dir _ cs) => resolveRel cs rest
    | some (Entry.file _) => rest.isEmpty
    | none => false

/-- `fs.existsSync(path.join(rootPath, dirPathStr))` for a workspace whose
`assets` directory holds `t`: the path's first segment must be `assets` and
the remaining segments must resolve under `t` (segments are matched
literally). -/
def fsExists (t : List Entry) (s : String) : Bool :=
  match splitOnC '/' s.data with
  | seg :: rest => if seg = "assets".data then resolveRel t rest else false
  | [] => false

/-- `syncPubspecYaml(rootPath, assetsPath)` as a transformer of the pubspec
content, for the asset tree `t` read by the same pass. -/
def syncPubspecYaml (t : List Entry) (content : String) : String :=
  joinLinesS (syncPubspecLines (requiredAssets t) (fsExists t) (splitLinesS content))

/-- Claim C1 (counterexample): with an empty asset tree, the root-category
entry `- assets/images/` — whose directory has vanished — is pruned from
the pubspec, contradicting the claim that shallow (root-category) entries
are never removed. -/
theorem c1_counterexample :
    syncPubspecYaml [] "flutter:\n  assets:\n    - assets/images/" =
      "flutter:\n  assets:" := by
  unfold syncPubspecYaml
  have h : requiredAssets [] = [] := by simp [requiredAssets]
  rw [h]
  decide

/-- Claim C1 (amended): the pruning pass removes exactly those lines,
anywhere in the file, whose trimmed text starts with `- assets/`, splits on
`/` into more than two pieces, and references a path that no longer exists
— this includes every root-category entry written with its trailing slash
(`- assets/<category>/`, three pieces); only lines splitting into at most
two pieces are never pruned. -/
theorem c1_amended (ex : String → Bool) (lines : List String) :
    pruneLines ex lines = lines.filter (fun l =>
      !((startsWithS (trimS l) "- assets/" &&
          decide ((splitSlashS (trimS l)).length > 2)) &&
        !(ex (stripEntryPath (trimS l))))) ∧
    ∀ l ∈ lines, (splitSlashS (trimS l)).length ≤ 2 → l ∈ pruneLines ex lines := by
  constructor
  · unfold pruneLines
    congr 1
    funext l
    unfold keepLineB
    by_cases h : (startsWithS (trimS l) "- assets/" &&
        decide ((splitSlashS (trimS l)).length > 2)) = true
    · rw [if_pos h, h]
      cases hex : ex (stripEntryPath (trimS l)) <;> simp
    · have h' := Bool.of_not_eq_true h
      rw [if_neg h, h']
      simp
  · intro l hl hlen
    unfold pruneLines
    refine List.mem_filter.mpr ⟨hl, ?_⟩
    simp only [keepLineB]
    have h2 : decide ((splitSlashS (trimS l)).length > 2) = false := by
      simp
      omega
    rw [h2, Bool.and_false]
    simp

/-- Witness for C1 (amended) at a concrete line: a line splitting into at
most two pieces survives pruning even when nothing exists on disk. -/
theorem c1_witness :
    "  - assets/" ∈ pruneLines (fun _ => false) ["  - assets/"] :=
  (c1_amended (fun _ => false) ["  - assets/"]).2 "  - assets/"
    (List.mem_cons_self _ _) (by decide)

/-- Claim C5 (counterexample): a line under an unrelated top-level key,
before the `flutter:` section, is removed by the synchronizer because the
pruning filter runs over every line of the file. -/
theorem c5_counterexample :
    syncPubspecYaml [] "dependencies:\n  - assets/old/\nflutter:\n  assets:" =
      "dependencies:\nflutter:\n  assets:" := by
  unfold syncPubspecYaml
  have h : requiredAssets [] = [] := by simp [requiredAssets]
  rw [h]
  decide

theorem sublist_insertIdx {α : Type} (l : List α) (n : Nat) (a : α) :
    List.Sublist l (List.insertIdx n a l) := by
  induction n generalizing l with
  | zero => exact List.sublist_cons_self a l
  | succ m ih =>
    cases l with
    | nil => simp [List.insertIdx]
    | cons x xs => simpa [List.insertIdx] using List.Sublist.cons₂ x (ih xs)

theorem sublist_insertMissing (reqs existing : List String) (pos added : Nat)
    (lines : List String) :
    List.Sublist lines (insertMissing reqs existing pos added lines) := by
  induction reqs generalizing added lines with
  | nil => exact List.Sublist.refl lines
  | cons r rs ih =>
    rw [insertMissing]
    by_cases hc : existing.contains r = true
    · rw [if_pos hc]; exact ih added lines
    · rw [if_neg hc]
      exact (sublist_insertIdx lines (pos + added) ("    " ++ r)).trans
        (ih (added + 1) _)

theorem sublist_ensureFlutter (lines : List String) :
    List.Sublist lines (ensureFlutter lines).1 := by
  unfold ensureFlutter
  cases h : findIdxO (fun l => startsWithS l "flutter:") lines with
  | some i => exact List.Sublist.refl lines
  | none => exact List.sublist_append_left lines _

theorem sublist_ensureAssets (p : List String × Nat) :
    List.Sublist p.1 (ensureAssets p).1 := by
  unfold ensureAssets
  cases h : findIdxO isAssetsHeader (p.1.drop (p.2 + 1)) with
  | some k => exact List.Sublist.refl p.1
  | none => exact sublist_insertIdx p.1 (p.2 + 1) "  assets:"

/-- Claim C5 (amended): the synchronizer preserves verbatim and in order
every existing line that survives the pruning predicate — including all
lines outside the assets section that do not look like asset entries — but
a line anywhere in the file whose trimmed text matches the asset-entry
pattern and references a missing directory is removed, even outside the
assets section. -/
theorem c5_amended (required : List String) (ex : String → Bool)
    (lines0 : List String) :
    List.Sublist (lines0.filter (keepLineB ex))
      (syncPubspecLines required ex lines0) ∧
    ∀ l, keepLineB ex l = false → l ∉ syncPubspecLines required ex lines0 := by
  constructor
  · unfold syncPubspecLines pruneLines
    refine List.Sublist.filter (keepLineB ex) ?_
    exact ((sublist_ensureFlutter lines0).trans
      (sublist_ensureAssets (ensureFlutter lines0))).trans
      (sublist_insertMissing _ _ _ _ _)
  · intro l hk hmem
    unfold syncPubspecLines pruneLines at hmem
    obtain ⟨-, hp⟩ := List.mem_filter.mp hmem
    rw [hk] at hp
    cases hp

/-- Witness for C5 (amended) at a concrete line: the entry for a vanished
directory is gone from the synchronized file. -/
theorem c5_witness :
    "  - assets/gone/" ∉
      syncPubspecLines [] (fun _ => false) ["flutter:", "  - assets/gone/"] :=
  (c5_amended [] (fun _ => false) ["flutter:", "  - assets/gone/"]).2
    "  - assets/gone/" (by decide)

/-! ## Completeness of the generated string properties (C3) -/

theorem stringEta (s : String) : String.mk s.data = s := by
  cases s; rfl

theorem stringExt {s t : String} (h : s.data = t.data) : s = t := by
  cases s; cases t; exact congrArg String.mk h

/-- `fwdSlash` is the identity on backslash-free strings. -/
theorem fwdSlash_id {s : String} (h : ∀ c ∈ s.data, c ≠ '\\') :
    fwdSlash s = s := by
  unfold fwdSlash
  refine stringExt ?_
  simp only
  rw [List.map_congr_left (fun c hc => if_neg (h c hc))]
  exact List.map_id s.data

theorem splitOnC_ne_nil (sep : Char) (l : List Char) : splitOnC sep l ≠ [] := by
  cases l with
  | nil => simp [splitOnC]
  | cons c rest =>
    rw [splitOnC]
    by_cases h : c = sep
    · rw [if_pos h]; simp
    · rw [if_neg h]
      cases hs : splitOnC sep rest <;> simp

/-- Splitting a separator-free list yields the one-piece split. -/
theorem splitOnC_sepfree {sep : Char} {l : List Char}
    (h : ∀ c ∈ l, c ≠ sep) : splitOnC sep l = [l] := by
  induction l with
  | nil => rfl
  | cons c rest ih =>
    rw [splitOnC, if_neg (h c (List.mem_cons_self c rest))]
    rw [ih (fun x hx => h x (List.mem_cons_of_mem c hx))]

/-- Splitting distributes over a separator occurrence. -/
theorem splitOnC_append_sep (sep : Char) (x y : List Char) :
    splitOnC sep (x ++ sep :: y) = splitOnC sep x ++ splitOnC sep y := by
  induction x with
  | nil => simp [splitOnC]
  | cons c rest ih =>
    by_cases h : c = sep
    · subst h
      rw [List.cons_append, splitOnC, if_pos rfl, ih, splitOnC, if_pos rfl]
      rfl
    · rw [List.cons_append, splitOnC, if_neg h, ih, splitOnC, if_neg h]
      obtain ⟨s, ss, hs⟩ : ∃ s ss, splitOnC sep rest = s :: ss := by
        cases hs : splitOnC sep rest with
        | nil => exact absurd hs (splitOnC_ne_nil sep rest)
        | cons s ss => exact ⟨s, ss, rfl⟩
      rw [hs]
      rfl

/-- Splitting inverts joining on separator-free pieces. -/
theorem splitOnC_joinWithC (sep : Char) (ls : List (List Char))
    (hne : ls ≠ []) (hfree : ∀ l ∈ ls, ∀ c ∈ l, c ≠ sep) :
    splitOnC sep (joinWithC sep ls) = ls := by
  induction ls with
  | nil => exact absurd rfl hne
  | cons l rest ih =>
    cases rest with
    | nil =>
      rw [joinWithC]
      exact splitOnC_sepfree (hfree l (List.mem_cons_self _ _))
    | cons l2 rest2 =>
      rw [joinWithC, splitOnC_append_sep,
        splitOnC_sepfree (hfree l (List.mem_cons_self _ _)),
        ih (List.cons_ne_nil l2 rest2) (fun x hx => hfree x (List.mem_cons_of_mem l hx))]
      · rfl
      · exact fun h => (List.cons_ne_nil l2 rest2) h

/-- Intercalate path segments with `/`. -/
def joinSlash (a : List String) : String :=
  String.mk (joinWithC '/' (a.map String.data))

/-- The logical path `assets/<rel>/<a₁>/.../<aₖ>` of a file address under
relative path `rel`. -/
def renderPathValue (rel : String) (a : List String) : String :=
  "assets/" ++ rel ++ "/" ++ joinSlash a

/-- The addresses — segment lists ending in the file name — of the files
the generator emits under a directory's entries: non-dot files directly,
and everything below each non-variant subdirectory. -/
def fileAddrs : List Entry → List (List String)
  | [] => []
  | .file n :: rest =>
    (if startsWithS n "." then [] else [[n]]) ++ fileAddrs rest
  | .dir n cs :: rest =>
    (if variantName n then [] else (fileAddrs cs).map (fun a => n :: a)) ++
      fileAddrs rest

/-- The values of the string-valued properties in a fragment list. -/
def stringPropValues (ls : List GenLine) : List String :=
  ls.filterMap (fun g => match g with
    | GenLine.stringProp _ v _ => some v
    | _ => none)

/-- A filesystem-clean name: non-empty, and free of the path separators,
line separators and quote characters manipulated by the two subsystems. -/
def cleanNameB (s : String) : Bool :=
  !s.data.isEmpty &&
  s.data.all (fun c =>
    !(c = '/' || c = '\\' || c = '\n' || c = '\r' || c = '\x27' || c = '"'))

/-- Well-formedness of a directory's entries: clean names throughout, and
sibling names pairwise distinct inside every directory. -/
def validEntries : List Entry → Bool
  | [] => true
  | .file n :: rest => cleanNameB n && validEntries rest
  | .dir n cs :: rest =>
    cleanNameB n && decide ((cs.map Entry.nameOf).Nodup) &&
      validEntries cs && validEntries rest

/-- Well-formedness of the whole asset root. -/
def validTreeB (t : List Entry) : Bool :=
  decide ((t.map Entry.nameOf).Nodup) && validEntries t

theorem stringPropValues_append (xs ys : List GenLine) :
    stringPropValues (xs ++ ys) = stringPropValues xs ++ stringPropValues ys :=
  List.filterMap_append ..

theorem filterMap_const_none {A B : Type} (l : List A) :
    l.filterMap (fun _ => (none : Option B)) = [] := by
  induction l with
  | nil => rfl
  | cons x xs ih => simp [List.filterMap_cons, ih]

theorem filterMap_some_eq_map {A B : Type} (g : A → B) (l : List A) :
    l.filterMap (fun x => some (g x)) = l.map g := by
  induction l with
  | nil => rfl
  | cons x xs ih => simpa [List.filterMap_cons] using ih

theorem stringPropValues_headerProps (items : List Entry) (rel cls : String) :
    stringPropValues (headerProps items rel cls) =
      (items.filter keepFileB).map (fun f => assetValue rel f.nameOf) := by
  unfold headerProps stringPropValues
  simp only [List.filterMap_append, List.filterMap_cons, List.filterMap_nil,
    List.filterMap_map]
  simp only [Function.comp_def]
  rw [filterMap_const_none, filterMap_some_eq_map]
  simp

theorem fileAddrs_ne_nil (items : List Entry) :
    ∀ a ∈ fileAddrs items, a ≠ [] := by
  induction items using fileAddrs.induct with
  | case1 => simp [fileAddrs]
  | case2 n rest ih =>
    intro a ha
    rw [fileAddrs] at ha
    rcases List.mem_append.mp ha with h | h
    · by_cases hd : startsWithS n "." = true
      · rw [if_pos hd] at h; cases h
      · rw [if_neg hd] at h
        simp at h
        subst h
        simp
    · exact ih a h
  | case3 n cs rest ihcs ihrest =>
    intro a ha
    rw [fileAddrs] at ha
    rcases List.mem_append.mp ha with h | h
    · by_cases hv : variantName n = true
      · rw [if_pos hv] at h; cases h
      · rw [if_neg hv] at h
        obtain ⟨b, -, rfl⟩ := List.mem_map.mp h
        simp
    · exact ihrest a h

theorem fileAddrs_head (items : List Entry) :
    ∀ a ∈ fileAddrs items, ∃ e ∈ items, ∃ t, a = e.nameOf :: t := by
  induction items using fileAddrs.induct with
  | case1 => simp [fileAddrs]
  | case2 n rest ih =>
    intro a ha
    rw [fileAddrs] at ha
    rcases List.mem_append.mp ha with h | h
    · by_cases hd : startsWithS n "." = true
      · rw [if_pos hd] at h; cases h
      · rw [if_neg hd] at h
        simp at h
        subst h
        exact ⟨Entry.file n, List.mem_cons_self _ _, [], by simp⟩
    · obtain ⟨e, he, t, ht⟩ := ih a h
      exact ⟨e, List.mem_cons_of_mem _ he, t, ht⟩
  | case3 n cs rest ihcs ihrest =>
    intro a ha
    rw [fileAddrs] at ha
    rcases List.mem_append.mp ha with h | h
    · by_cases hv : variantName n = true
      · rw [if_pos hv] at h; cases h
      · rw [if_neg hv] at h
        obtain ⟨b, -, rfl⟩ := List.mem_map.mp h
        exact ⟨Entry.dir n cs, List.mem_cons_self _ _, b, by simp⟩
    · obtain ⟨e, he, t, ht⟩ := ihrest a h
      exact ⟨e, List.mem_cons_of_mem _ he, t, ht⟩

theorem cleanNameB_spec {s : String} (h : cleanNameB s = true) :
    s.data ≠ [] ∧ ∀ c ∈ s.data,
      c ≠ '/' ∧ c ≠ '\\' ∧ c ≠ '\n' ∧ c ≠ '\r' ∧ c ≠ '\x27' ∧ c ≠ '"' := by
  unfold cleanNameB at h
  rw [Bool.and_eq_true] at h
  obtain ⟨h1, h2⟩ := h
  constructor
  · simpa using h1
  · intro c hc
    have h3 := List.all_eq_true.mp h2 c hc
    simpa [and_assoc] using h3

theorem validEntries_file {n : String} {rest : List Entry}
    (hv : validEntries (Entry.file n :: rest) = true) :
    cleanNameB n = true ∧ validEntries rest = true := by
  rw [validEntries, Bool.and_eq_true] at hv
  exact hv

theorem validEntries_dir {n : String} {cs rest : List Entry}
    (hv : validEntries (Entry.dir n cs :: rest) = true) :
    cleanNameB n = true ∧ (cs.map Entry.nameOf).Nodup ∧
      validEntries cs = true ∧ validEntries rest = true := by
  rw [validEntries, Bool.and_eq_true, Bool.and_eq_true, Bool.and_eq_true] at hv
  obtain ⟨⟨⟨h1, h2⟩, h3⟩, h4⟩ := hv
  exact ⟨h1, of_decide_eq_true h2, h3, h4⟩

theorem fileAddrs_clean (items : List Entry) (hv : validEntries items = true) :
    ∀ a ∈ fileAddrs items, ∀ s ∈ a, cleanNameB s = true := by
  induction items using fileAddrs.induct with
  | case1 => simp [fileAddrs]
  | case2 n rest ih =>
    obtain ⟨hn, hrest⟩ := validEntries_file hv
    intro a ha s hs
    rw [fileAddrs] at ha
    rcases List.mem_append.mp ha with h | h
    · by_cases hd : startsWithS n "." = true
      · rw [if_pos hd] at h; cases h
      · rw [if_neg hd] at h
        simp at h
        subst h
        simp at hs
        subst hs
        exact hn
    · exact ih hrest a h s hs
  | case3 n cs rest ihcs ihrest =>
    obtain ⟨hn, hnd, hcs, hrest⟩ := validEntries_dir hv
    intro a ha s hs
    rw [fileAddrs] at ha
    rcases List.mem_append.mp ha with h | h
    · by_cases hva : variantName n = true
      · rw [if_pos hva] at h; cases h
      · rw [if_neg hva] at h
        obtain ⟨b, hb, rfl⟩ := List.mem_map.mp h
        rcases List.mem_cons.mp hs with rfl | hs'
        · exact hn
        · exact ihcs hcs b hb s hs'
    · exact ihrest hrest a h s hs

theorem fileAddrs_nodup (items : List Entry) (hv : validEntries items = true)
    (hnd : (items.map Entry.nameOf).Nodup) : (fileAddrs items).Nodup := by
  induction items using fileAddrs.induct with
  | case1 => simp [fileAddrs]
  | case2 n rest ih =>
    obtain ⟨hn, hrest⟩ := validEntries_file hv
    rw [List.map_cons, List.nodup_cons] at hnd
    obtain ⟨hnmem, hndrest⟩ := hnd
    rw [fileAddrs]
    by_cases hd : startsWithS n "." = true
    · rw [if_pos hd]
      simpa using ih hrest hndrest
    · rw [if_neg hd]
      refine List.Nodup.append (by simp) (ih hrest hndrest) ?_
      intro a ha hb
      simp at ha
      subst ha
      obtain ⟨e, he, t, ht⟩ := fileAddrs_head rest _ hb
      have hen : e.nameOf = n := by
        have h2 := congrArg List.head? ht
        simp at h2
        exact h2.symm
      exact hnmem (hen ▸ List.mem_map.mpr ⟨e, he, rfl⟩)
  | case3 n cs rest ihcs ihrest =>
    obtain ⟨hn, hndcs, hcs, hrest⟩ := validEntries_dir hv
    rw [List.map_cons, List.nodup_cons] at hnd
    obtain ⟨hnmem, hndrest⟩ := hnd
    rw [fileAddrs]
    by_cases hva : variantName n = true
    · rw [if_pos hva]
      simpa using ihrest hrest hndrest
    · rw [if_neg hva]
      refine List.Nodup.append ?_ (ihrest hrest hndrest) ?_
      · refine List.Nodup.map ?_ (ihcs hcs hndcs)
        intro x y hxy
        injection hxy
      · intro a ha hb
        obtain ⟨b, -, rfl⟩ := List.mem_map.mp ha
        obtain ⟨e, he, t, ht⟩ := fileAddrs_head rest _ hb
        have hen : e.nameOf = n := by
          have h2 := congrArg List.head? ht
          simp at h2
          exact h2.symm
        exact hnmem (hen ▸ List.mem_map.mpr ⟨e, he, rfl⟩)

theorem mkData (l : List Char) : (String.mk l).data = l := rfl

theorem joinWithC_one (sep : Char) (x : List Char) : joinWithC sep [x] = x := rfl

theorem joinWithC_cons2 (sep : Char) (x y : List Char) (ls : List (List Char)) :
    joinWithC sep (x :: y :: ls) = x ++ sep :: joinWithC sep (y :: ls) := rfl

theorem renderPathValue_single (rel n : String) :
    renderPathValue rel [n] = "assets/" ++ rel ++ "/" ++ n := by
  unfold renderPathValue joinSlash
  rw [List.map_cons, List.map_nil, joinWithC_one, stringEta]

theorem renderPathValue_cons (rel n : String) (a : List String) (ha : a ≠ []) :
    renderPathValue rel (n :: a) = renderPathValue (rel ++ "/" ++ n) a := by
  obtain ⟨a0, arest, rfl⟩ : ∃ a0 arest, a = a0 :: arest := by
    cases a with
    | nil => exact absurd rfl ha
    | cons x xs => exact ⟨x, xs, rfl⟩
  unfold renderPathValue joinSlash
  refine stringExt ?_
  simp [data_append, mkData, List.map_cons, joinWithC_cons2,
    show "/".data = ['/'] from rfl, List.append_assoc]

theorem bsfree_append {a b : String} (ha : ∀ c ∈ a.data, c ≠ '\\')
    (hb : ∀ c ∈ b.data, c ≠ '\\') : ∀ c ∈ (a ++ b).data, c ≠ '\\' := by
  rw [data_append]
  intro c hc
  rcases List.mem_append.mp hc with h | h
  · exact ha c h
  · exact hb c h

theorem cleanNameB_bsfree {s : String} (h : cleanNameB s = true) :
    ∀ c ∈ s.data, c ≠ '\\' :=
  fun c hc => ((cleanNameB_spec h).2 c hc).2.1

theorem perm_middle_left {α : Type} (x y z : List α) :
    List.Perm (x ++ (y ++ z)) (y ++ (x ++ z)) := by
  have h1 : List.Perm ((x ++ y) ++ z) ((y ++ x) ++ z) :=
    List.perm_append_comm.append_right z
  simpa [List.append_assoc] using h1

/-- The multiset of string-property values emitted for a directory's
entries is exactly the rendered logical paths of its file addresses. -/
theorem stringPropValues_perm (items : List Entry) :
    ∀ rel cls : String, (∀ c ∈ rel.data, c ≠ '\\') → validEntries items = true →
      List.Perm (stringPropValues (genLinesDir items rel cls))
        ((fileAddrs items).map (renderPathValue rel)) := by
  induction items using fileAddrs.induct with
  | case1 =>
    intro rel cls _ _
    unfold genLinesDir
    rw [stringPropValues_append, stringPropValues_headerProps]
    simp [nestedLines, fileAddrs, stringPropValues]
  | case2 n rest ih =>
    intro rel cls hrel hv
    obtain ⟨hn, hrest⟩ := validEntries_file hv
    have hsplit : stringPropValues (genLinesDir (Entry.file n :: rest) rel cls) =
        (if startsWithS n "." = true then [] else [assetValue rel n]) ++
          stringPropValues (genLinesDir rest rel cls) := by
      unfold genLinesDir
      rw [stringPropValues_append, stringPropValues_append,
        stringPropValues_headerProps, stringPropValues_headerProps,
        List.filter_cons, nestedLines]
      by_cases hd : startsWithS n "." = true
      · have hk : keepFileB (Entry.file n) = false := by simp [hd]
        rw [hk]
        simp [hd]
      · have hk : keepFileB (Entry.file n) = true := by simp [hd]
        rw [hk]
        simp [hd]
    rw [hsplit, fileAddrs, List.map_append]
    refine List.Perm.append ?_ (ih rel cls hrel hrest)
    by_cases hd : startsWithS n "." = true
    · simp [hd]
    · have hval : assetValue rel n = renderPathValue rel [n] := by
        rw [renderPathValue_single]
        unfold assetValue
        rw [fwdSlash_id hrel]
      simp [hd, hval]
  | case3 n cs rest ihcs ihrest =>
    intro rel cls hrel hv
    obtain ⟨hn, hndcs, hcs, hrest⟩ := validEntries_dir hv
    have hrel' : ∀ c ∈ (rel ++ "/" ++ n).data, c ≠ '\\' :=
      bsfree_append (bsfree_append hrel (by decide)) (cleanNameB_bsfree hn)
    have hsplit : stringPropValues (genLinesDir (Entry.dir n cs :: rest) rel cls) =
        ((rest.filter keepFileB).map (fun f => assetValue rel f.nameOf)) ++
          ((if variantName n = true then []
            else stringPropValues
              (genLinesDir cs (rel ++ "/" ++ n) (cls ++ capitalizeS n))) ++
            stringPropValues (nestedLines rest rel cls)) := by
      unfold genLinesDir
      rw [stringPropValues_append, stringPropValues_headerProps, List.filter_cons]
      have hk : keepFileB (Entry.dir n cs) = false := by simp
      rw [hk]
      rw [nestedLines, stringPropValues_append]
      by_cases hva : variantName n = true
      · rw [if_pos hva, if_pos hva]
        simp [stringPropValues]
      · rw [if_neg hva, if_neg hva, stringPropValues_append]
        simp
    have hrestSplit : stringPropValues (genLinesDir rest rel cls) =
        ((rest.filter keepFileB).map (fun f => assetValue rel f.nameOf)) ++
          stringPropValues (nestedLines rest rel cls) := by
      unfold genLinesDir
      rw [stringPropValues_append, stringPropValues_headerProps]
    rw [hsplit, fileAddrs, List.map_append]
    refine (perm_middle_left _ _ _).trans (List.Perm.append ?_ ?_)
    · by_cases hva : variantName n = true
      · simp [hva]
      · rw [if_neg hva, if_neg hva, List.map_map]
        have hmc : ((fileAddrs cs).map (renderPathValue rel ∘ fun a => n :: a)) =
            (fileAddrs cs).map (renderPathValue (rel ++ "/" ++ n)) :=
          List.map_congr_left (fun a ha =>
            renderPathValue_cons rel n a (fileAddrs_ne_nil cs a ha))
        rw [hmc]
        exact ihcs (rel ++ "/" ++ n) (cls ++ capitalizeS n) hrel' hcs
    · rw [← hrestSplit]
      exact ihrest rel cls hrel hrest

theorem append_sep_inj {sep : Char} {a1 a2 b1 b2 : List Char}
    (ha1 : ∀ c ∈ a1, c ≠ sep) (ha2 : ∀ c ∈ a2, c ≠ sep)
    (h : a1 ++ sep :: b1 = a2 ++ sep :: b2) : a1 = a2 ∧ b1 = b2 := by
  induction a1 generalizing a2 with
  | nil =>
    cases a2 with
    | nil => simpa using h
    | cons x xs =>
      rw [List.nil_append, List.cons_append] at h
      injection h with h1 h2
      exact absurd h1.symm (ha2 x (List.mem_cons_self x xs))
  | cons y ys ih =>
    cases a2 with
    | nil =>
      rw [List.nil_append, List.cons_append] at h
      injection h with h1 h2
      exact absurd h1 (ha1 y (List.mem_cons_self y ys))
    | cons x xs =>
      rw [List.cons_append, List.cons_append] at h
      injection h with h1 h2
      obtain ⟨hh1, hh2⟩ := ih (fun c hc => ha1 c (List.mem_cons_of_mem y hc))
        (fun c hc => ha2 c (List.mem_cons_of_mem x hc)) h2
      exact ⟨by rw [h1, hh1], hh2⟩

theorem renderPathValue_inj {rel : String} {a1 a2 : List String}
    (h1ne : a1 ≠ []) (h2ne : a2 ≠ [])
    (h1c : ∀ s ∈ a1, ∀ c ∈ s.data, c ≠ '/')
    (h2c : ∀ s ∈ a2, ∀ c ∈ s.data, c ≠ '/')
    (h : renderPathValue rel a1 = renderPathValue rel a2) : a1 = a2 := by
  have hd := congrArg String.data h
  unfold renderPathValue joinSlash at hd
  simp only [data_append, mkData] at hd
  have hJ : joinWithC '/' (a1.map String.data) = joinWithC '/' (a2.map String.data) :=
    List.append_cancel_left hd
  have hs1 := splitOnC_joinWithC '/' (a1.map String.data) (by simpa using h1ne)
    (fun l hl c hc => by
      obtain ⟨s, hs, rfl⟩ := List.mem_map.mp hl
      exact h1c s hs c hc)
  have hs2 := splitOnC_joinWithC '/' (a2.map String.data) (by simpa using h2ne)
    (fun l hl c hc => by
      obtain ⟨s, hs, rfl⟩ := List.mem_map.mp hl
      exact h2c s hs c hc)
  have hmap : a1.map String.data = a2.map String.data := by
    rw [← hs1, ← hs2, hJ]
  exact List.map_injective_iff.mpr (fun s t hst => stringExt hst) hmap

theorem renderPathValue_rel_eq {n n2 : String} {b a : List String}
    (hnc : ∀ c ∈ n.data, c ≠ '/') (hn2c : ∀ c ∈ n2.data, c ≠ '/')
    (h : renderPathValue n b = renderPathValue n2 a) : n = n2 := by
  have hd := congrArg String.data h
  unfold renderPathValue joinSlash at hd
  simp only [data_append, mkData, List.append_assoc,
    show "/".data = ['/'] from rfl, List.singleton_append, List.cons_append,
    List.nil_append, List.cons.injEq, true_and] at hd
  exact stringExt (append_sep_inj hnc hn2c hd).1

/-- Within one category, a file address's rendered path occurs exactly once
among the generated string-property values. -/
theorem count_one_per_category (cs : List Entry) (n cls : String)
    (hn : cleanNameB n = true) (hndcs : (cs.map Entry.nameOf).Nodup)
    (hcs : validEntries cs = true) (a : List String) (ha : a ∈ fileAddrs cs) :
    (stringPropValues (genLinesDir cs n cls)).count (renderPathValue n a) = 1 := by
  rw [(stringPropValues_perm cs n cls (cleanNameB_bsfree hn) hcs).count_eq]
  have hmapnd : ((fileAddrs cs).map (renderPathValue n)).Nodup := by
    refine List.Nodup.map_on ?_ (fileAddrs_nodup cs hcs hndcs)
    intro x hx y hy hxy
    exact renderPathValue_inj (fileAddrs_ne_nil cs x hx) (fileAddrs_ne_nil cs y hy)
      (fun s hs c hc => ((cleanNameB_spec (fileAddrs_clean cs hcs x hx s hs)).2 c hc).1)
      (fun s hs c hc => ((cleanNameB_spec (fileAddrs_clean cs hcs y hy s hs)).2 c hc).1)
      hxy
  exact List.count_eq_one_of_mem hmapnd (List.mem_map.mpr ⟨a, ha, rfl⟩)

/-- A path rendered under a different category name never occurs among a
category's generated string-property values. -/
theorem count_zero_other_category (cs : List Entry) (n n2 cls : String)
    (hnn : n2 ≠ n) (hn : cleanNameB n = true) (hn2c : ∀ c ∈ n2.data, c ≠ '/')
    (hcs : validEntries cs = true) (a : List String) :
    (stringPropValues (genLinesDir cs n cls)).count (renderPathValue n2 a) = 0 := by
  rw [(stringPropValues_perm cs n cls (cleanNameB_bsfree hn) hcs).count_eq]
  rw [List.count_eq_zero]
  intro hmem
  obtain ⟨b, hb, hbeq⟩ := List.mem_map.mp hmem
  have hnc : ∀ c ∈ n.data, c ≠ '/' :=
    fun c hc => ((cleanNameB_spec hn).2 c hc).1
  exact hnn (renderPathValue_rel_eq hnc hn2c hbeq).symm

theorem validEntries_of_mem {t : List Entry} (hv : validEntries t = true)
    {n : String} {cs : List Entry} (hmem : Entry.dir n cs ∈ t) :
    cleanNameB n = true ∧ (cs.map Entry.nameOf).Nodup ∧ validEntries cs = true := by
  induction t with
  | nil => cases hmem
  | cons e rest ih =>
    cases e with
    | file m =>
      rcases List.mem_cons.mp hmem with heq | hmem'
      · cases heq
      · exact ih (validEntries_file hv).2 hmem'
    | dir m ds =>
      obtain ⟨hm, hmnd, hds, hrest⟩ := validEntries_dir hv
      rcases List.mem_cons.mp hmem with heq | hmem'
      · injection heq with h1 h2
        subst h1; subst h2
        exact ⟨hm, hmnd, hds⟩
      · exact ih hrest hmem'

/-- All string-property values emitted across one whole pass (every
category's part file, in order). -/
def passValues : List Entry → List String
  | [] => []
  | .file _ :: rest => passValues rest
  | .dir n cs :: rest =>
    stringPropValues (genLinesDir cs n (rootClassNameOf n)) ++ passValues rest

theorem passValues_count_zero (rest : List Entry)
    (hv : validEntries rest = true) (n : String)
    (hnotin : n ∉ rest.map Entry.nameOf) (hnc : ∀ c ∈ n.data, c ≠ '/')
    (a : List String) :
    (passValues rest).count (renderPathValue n a) = 0 := by
  induction rest with
  | nil => simp [passValues]
  | cons e t ih =>
    cases e with
    | file m =>
      rw [passValues]
      exact ih (validEntries_file hv).2
        (fun hmem2 => hnotin (by rw [List.map_cons]; exact List.mem_cons_of_mem _ hmem2))
    | dir m ds =>
      obtain ⟨hm, hmnd, hds, ht⟩ := validEntries_dir hv
      rw [passValues, List.count_append]
      have hne : n ≠ m := fun h => hnotin (by
        rw [List.map_cons, h]
        exact List.mem_cons_self _ _)
      rw [count_zero_other_category ds m n (rootClassNameOf m) hne hm hnc hds a]
      rw [ih ht (fun hmem2 => hnotin (by rw [List.map_cons]; exact List.mem_cons_of_mem _ hmem2))]

theorem passValues_count_one (t : List Entry) (hvt : validEntries t = true)
    (hndt : (t.map Entry.nameOf).Nodup) {n : String} {cs : List Entry}
    (hmem : Entry.dir n cs ∈ t) {a : List String} (ha : a ∈ fileAddrs cs) :
    (passValues t).count (renderPathValue n a) = 1 := by
  induction t with
  | nil => cases hmem
  | cons e rest ih =>
    cases e with
    | file m =>
      rcases List.mem_cons.mp hmem with heq | hmem'
      · cases heq
      · rw [passValues]
        rw [List.map_cons, List.nodup_cons] at hndt
        exact ih (validEntries_file hvt).2 hndt.2 hmem'
    | dir m ds =>
      obtain ⟨hm, hmnd, hds, hrest⟩ := validEntries_dir hvt
      rw [List.map_cons, List.nodup_cons] at hndt
      obtain ⟨hmnotin, hndrest⟩ := hndt
      rw [passValues, List.count_append]
      rcases List.mem_cons.mp hmem with heq | hmem'
      · injection heq with h1 h2
        subst h1; subst h2
        rw [count_one_per_category cs n (rootClassNameOf n) hm hmnd hds a ha]
        rw [passValues_count_zero rest hrest n hmnotin
          (fun c hc => ((cleanNameB_spec hm).2 c hc).1) a]
      · have hnm : cleanNameB n = true :=
          (validEntries_of_mem hrest hmem').1
        have hne : n ≠ m := by
          intro h
          subst h
          exact hmnotin (List.mem_map.mpr ⟨Entry.dir n cs, hmem', rfl⟩)
        rw [count_zero_other_category ds m n (rootClassNameOf m) hne hm
          (fun c hc => ((cleanNameB_spec hnm).2 c hc).1) hds a]
        rw [ih hrest hndrest hmem']

/-- Claim C3 (counterexample): `assets/images/.hidden.png` is a non-variant
file under the asset root, yet the pass emits no string-valued property for
it — the generator's file filter drops dotfiles. -/
theorem c3_counterexample :
    ¬ ((passValues [Entry.dir "images" [Entry.file ".hidden.png"]]).count
        "assets/images/.hidden.png" = 1) := by
  have h : passValues [Entry.dir "images" [Entry.file ".hidden.png"]] = [] := by
    rw [passValues, passValues]
    unfold genLinesDir
    rw [stringPropValues_append, stringPropValues_headerProps]
    rw [nestedLines, nestedLines]
    simp [stringPropValues, List.filter_cons]
    decide
  rw [h]
  simp

/-- Claim C3 (amended): for every file reachable by the generator's walk —
a non-dotfile inside a category, not under any variant directory — one pass
emits exactly one string-valued property whose value is the forward-slash
logical path `assets/<category>/<...>/<filename>`; dotfiles and files lying
directly in the asset root receive none. -/
theorem c3_amended (t : List Entry) (hv : validTreeB t = true)
    (n : String) (cs : List Entry) (hmem : Entry.dir n cs ∈ t)
    (a : List String) (ha : a ∈ fileAddrs cs) :
    (passValues t).count (renderPathValue n a) = 1 := by
  rw [validTreeB, Bool.and_eq_true] at hv
  exact passValues_count_one t hv.2 (of_decide_eq_true hv.1) hmem ha

/-- Witness for C3 (amended) at a concrete tree: `assets/images/logo.png`
is emitted exactly once. -/
theorem c3_witness :
    (passValues [Entry.dir "images" [Entry.file "logo.png"]]).count
      (renderPathValue "images" ["logo.png"]) = 1 :=
  c3_amended [Entry.dir "images" [Entry.file "logo.png"]]
    (by simp [validTreeB, validEntries]; decide)
    "images" [Entry.file "logo.png"] (List.mem_cons_self _ _)
    ["logo.png"] (by rw [fileAddrs, fileAddrs]; decide)

/-! ## Idempotence of a sync pass (C4) -/

theorem findIdxO_some_decomp {α : Type} {p : α → Bool} {l : List α} {i : Nat}
    (h : findIdxO p l = some i) :
    ∃ P x S, l = P ++ x :: S ∧ P.length = i ∧
      (∀ y ∈ P, p y = false) ∧ p x = true := by
  induction l generalizing i with
  | nil => cases h
  | cons a rest ih =>
    rw [findIdxO] at h
    by_cases hp : p a = true
    · rw [if_pos hp] at h
      injection h with h0
      exact ⟨[], a, rest, rfl, h0, by simp, hp⟩
    · rw [if_neg hp] at h
      cases hj : findIdxO p rest with
      | none => rw [hj] at h; cases h
      | some j =>
        rw [hj] at h
        injection h with h0
        obtain ⟨P, x, S, hdec, hlen, hP, hx⟩ := ih hj
        exact ⟨a :: P, x, S, by rw [hdec, List.cons_append], by simp [hlen, h0],
          fun y hy => by
            rcases List.mem_cons.mp hy with rfl | hy'
            · exact Bool.of_not_eq_true hp
            · exact hP y hy', hx⟩

theorem findIdxO_none_iff {α : Type} {p : α → Bool} {l : List α} :
    findIdxO p l = none ↔ ∀ x ∈ l, p x = false := by
  induction l with
  | nil => simp [findIdxO]
  | cons a rest ih =>
    rw [findIdxO]
    by_cases hp : p a = true
    · rw [if_pos hp]
      constructor
      · intro h; cases h
      · intro h
        exact absurd (h a (List.mem_cons_self a rest)) (by rw [hp]; simp)
    · rw [if_neg hp]
      constructor
      · intro h x hx
        rcases List.mem_cons.mp hx with rfl | hx'
        · exact Bool.of_not_eq_true hp
        · refine ih.mp ?_ x hx'
          cases hj : findIdxO p rest with
          | none => rfl
          | some v => rw [hj] at h; cases h
      · intro h
        rw [ih.mpr (fun x hx => h x (List.mem_cons_of_mem a hx))]
        rfl

theorem findIdxO_append_first {α : Type} (p : α → Bool) (P S : List α) (x : α)
    (hP : ∀ y ∈ P, p y = false) (hx : p x = true) :
    findIdxO p (P ++ x :: S) = some P.length := by
  induction P with
  | nil => simp [findIdxO, hx]
  | cons a rest ih =>
    rw [List.cons_append, findIdxO,
      if_neg (by rw [hP a (List.mem_cons_self a rest)]; simp),
      ih (fun y hy => hP y (List.mem_cons_of_mem a hy))]
    rfl

theorem findIdxO_isSome_of_mem {α : Type} {p : α → Bool} {l : List α} {x : α}
    (hx : x ∈ l) (hp : p x = true) : ∃ i, findIdxO p l = some i := by
  cases h : findIdxO p l with
  | none => exact absurd (findIdxO_none_iff.mp h x hx) (by rw [hp]; simp)
  | some i => exact ⟨i, rfl⟩

theorem insertIdx_middle {α : Type} (l1 l2 : List α) (y x : α) :
    List.insertIdx (l1.length + 1) x (l1 ++ y :: l2) = l1 ++ y :: x :: l2 := by
  induction l1 with
  | nil => rfl
  | cons a rest ih => simpa [List.insertIdx] using ih

theorem insertIdx_ge {α : Type} (l1 l2 : List α) (x : α) (n : Nat)
    (h : n ≥ l1.length) :
    List.insertIdx n x (l1 ++ l2) = l1 ++ List.insertIdx (n - l1.length) x l2 := by
  induction l1 generalizing n with
  | nil => simp
  | cons a rest ih =>
    cases n with
    | zero => simp at h
    | succ m =>
      rw [List.cons_append, List.insertIdx_succ_cons, ih m (by simpa using h)]
      simp

theorem mem_insertIdx_self {α : Type} (l : List α) (n : Nat) (x : α)
    (h : n ≤ l.length) : x ∈ List.insertIdx n x l := by
  induction l generalizing n with
  | nil =>
    cases n with
    | zero => simp [List.insertIdx]
    | succ m => simp at h
  | cons a rest ih =>
    cases n with
    | zero => simp [List.insertIdx]
    | succ m =>
      rw [List.insertIdx_succ_cons]
      exact List.mem_cons_of_mem a (ih m (by simpa using h))

theorem mem_of_mem_insertIdx {α : Type} {l : List α} {n : Nat} {x y : α}
    (h : y ∈ List.insertIdx n x l) : y ∈ l ∨ y = x := by
  induction l generalizing n with
  | nil =>
    cases n with
    | zero => simp [List.insertIdx] at h; exact Or.inr h
    | succ m => simp [List.insertIdx] at h
  | cons a rest ih =>
    cases n with
    | zero =>
      rw [List.insertIdx_zero] at h
      rcases List.mem_cons.mp h with rfl | h'
      · exact Or.inr rfl
      · exact Or.inl h'
    | succ m =>
      rw [List.insertIdx_succ_cons] at h
      rcases List.mem_cons.mp h with rfl | h'
      · exact Or.inl (List.mem_cons_self _ _)
      · rcases ih h' with h2 | h2
        · exact Or.inl (List.mem_cons_of_mem a h2)
        · exact Or.inr h2

theorem length_insertIdx_le {α : Type} (l : List α) (n : Nat) (x : α)
    (h : n ≤ l.length) : (List.insertIdx n x l).length = l.length + 1 := by
  induction l generalizing n with
  | nil =>
    cases n with
    | zero => rfl
    | succ m => simp at h
  | cons a rest ih =>
    cases n with
    | zero => rfl
    | succ m =>
      rw [List.insertIdx_succ_cons]
      simp [ih m (by simpa using h)]

theorem prefB_exists_append {p l : List Char} (h : prefB p l = true) :
    ∃ t, l = p ++ t := by
  induction p generalizing l with
  | nil => exact ⟨l, rfl⟩
  | cons a ps ih =>
    cases l with
    | nil => cases h
    | cons c cs =>
      rw [prefB, Bool.and_eq_true] at h
      obtain ⟨h1, h2⟩ := h
      obtain ⟨t, ht⟩ := ih h2
      exact ⟨t, by rw [ht, List.cons_append, of_decide_eq_true h1]⟩

theorem dropWhile_append_of_all {α : Type} {p : α → Bool} {ws l : List α}
    (h : ∀ c ∈ ws, p c = true) :
    List.dropWhile p (ws ++ l) = List.dropWhile p l := by
  induction ws with
  | nil => rfl
  | cons a rest ih =>
    rw [List.cons_append, List.dropWhile_cons,
      if_pos (h a (List.mem_cons_self a rest))]
    exact ih (fun c hc => h c (List.mem_cons_of_mem a hc))

theorem dropWhile_append_last {α : Type} {p : α → Bool} {X : List α} {c : α}
    (hc : p c = false) :
    List.dropWhile p (X ++ [c]) = List.dropWhile p X ++ [c] := by
  induction X with
  | nil => simp [List.dropWhile_cons, hc]
  | cons a rest ih =>
    rw [List.cons_append, List.dropWhile_cons, List.dropWhile_cons]
    by_cases hp : p a = true
    · rw [if_pos hp, if_pos hp, ih]
    · rw [if_neg hp, if_neg hp, List.cons_append]

theorem trimChars_ws_head {ws l : List Char} (h : ∀ c ∈ ws, isWS c = true) :
    trimChars (ws ++ l) = trimChars l := by
  unfold trimChars
  rw [dropWhile_append_of_all h]

theorem trimChars_id {c1 c2 : Char} {mid : List Char}
    (h1 : isWS c1 = false) (h2 : isWS c2 = false) :
    trimChars (c1 :: (mid ++ [c2])) = c1 :: (mid ++ [c2]) := by
  unfold trimChars
  rw [List.dropWhile_cons, if_neg (by rw [h1]; simp)]
  rw [show c1 :: (mid ++ [c2]) = (c1 :: mid) ++ [c2] from rfl]
  rw [List.reverse_append]
  rw [show [c2].reverse = [c2] from rfl, List.singleton_append,
    List.dropWhile_cons, if_neg (by rw [h2]; simp)]
  simp

theorem trimChars_head {l : List Char} {c : Char} {rest : List Char}
    (h : l.dropWhile isWS = c :: rest) (hc : isWS c = false) :
    ∃ rest2, trimChars l = c :: rest2 := by
  unfold trimChars
  rw [h]
  rw [show (c :: rest).reverse = rest.reverse ++ [c] by simp]
  rw [dropWhile_append_last hc]
  exact ⟨((rest.reverse.dropWhile isWS).reverse), by simp⟩

theorem keepLineB_of_trim_head {ex : String → Bool} {l : String} {c : Char}
    {rest2 : List Char} (h : (trimS l).data = c :: rest2) (hc : c ≠ '-') :
    keepLineB ex l = true := by
  have hsw : startsWithS (trimS l) "- assets/" = false := by
    unfold startsWithS
    rw [h, show "- assets/".data = '-' :: " assets/".data from rfl, prefB]
    have hd2 : decide ('-' = c) = false := decide_eq_false (fun he => hc he.symm)
    rw [hd2]
    simp
  simp only [keepLineB]
  rw [hsw]
  simp

/-- The facts the idempotence argument needs about each required line:
it is trim-stable, looks like an asset entry with more than two slash
pieces, references an existing directory, and contains no newline. -/
def goodReq (ex : String → Bool) (r : String) : Prop :=
  trimS r = r ∧ startsWithS r "- assets/" = true ∧
    (splitSlashS r).length > 2 ∧ ex (stripEntryPath r) = true ∧
    ∀ c ∈ r.data, c ≠ '\n'

theorem keepLineB_of_trim_good {ex : String → Bool} {line r : String}
    (ht : trimS line = r) (hg : goodReq ex r) : keepLineB ex line = true := by
  obtain ⟨h1, h2, h3, h4, h5⟩ := hg
  have hcond : (startsWithS r "- assets/" &&
      decide ((splitSlashS r).length > 2)) = true := by
    rw [h2, decide_eq_true h3]
    rfl
  simp only [keepLineB, ht]
  rw [hcond]
  simp [h4]

theorem keep_flutter_line {ex : String → Bool} {l : String}
    (h : startsWithS l "flutter:" = true) : keepLineB ex l = true := by
  obtain ⟨t, ht⟩ := prefB_exists_append h
  have hdw : l.data.dropWhile isWS = 'f' :: ("lutter:".data ++ t) := by
    rw [ht, show "flutter:".data = 'f' :: "lutter:".data from rfl,
      List.cons_append, List.dropWhile_cons, if_neg (by decide)]
  obtain ⟨r2, hr2⟩ := trimChars_head hdw (by decide)
  exact keepLineB_of_trim_head
    (show (trimS l).data = 'f' :: r2 from by rw [trimS, mkData]; exact hr2)
    (by decide)

theorem keep_assets_line {ex : String → Bool} {l : String}
    (h : isAssetsHeader l = true) : keepLineB ex l = true := by
  obtain ⟨t, ht⟩ := prefB_exists_append h
  have hdw : l.data.dropWhile isWS = 'a' :: ("ssets:".data ++ t) := by
    rw [ht, show "  assets:".data = ' ' :: ' ' :: 'a' :: "ssets:".data from rfl]
    rw [List.cons_append, List.dropWhile_cons, if_pos (by decide)]
    rw [List.cons_append, List.dropWhile_cons, if_pos (by decide)]
    rw [List.cons_append, List.dropWhile_cons, if_neg (by decide)]
  obtain ⟨r2, hr2⟩ := trimChars_head hdw (by decide)
  exact keepLineB_of_trim_head
    (show (trimS l).data = 'a' :: r2 from by rw [trimS, mkData]; exact hr2)
    (by decide)

theorem insertMissing_all_present (reqs existing : List String) (pos added : Nat)
    (lines : List String) (h : ∀ r ∈ reqs, existing.contains r = true) :
    insertMissing reqs existing pos added lines = lines := by
  induction reqs generalizing added lines with
  | nil => rw [insertMissing]
  | cons q qs ih =>
    rw [insertMissing, if_pos (h q (List.mem_cons_self q qs))]
    exact ih added lines (fun r hr => h r (List.mem_cons_of_mem q hr))

theorem insertMissing_prefix (reqs existing : List String) (pos added : Nat)
    (pre suf : List String) (hpos : pre.length ≤ pos + added) :
    ∃ suf2, insertMissing reqs existing pos added (pre ++ suf) = pre ++ suf2 := by
  induction reqs generalizing added suf with
  | nil => exact ⟨suf, by rw [insertMissing]⟩
  | cons q qs ih =>
    rw [insertMissing]
    by_cases hc : existing.contains q = true
    · rw [if_pos hc]
      exact ih added suf hpos
    · rw [if_neg hc]
      rw [insertIdx_ge pre suf _ _ hpos]
      exact ih (added + 1) _ (by omega)

theorem mem_insertMissing_of_missing (reqs existing : List String)
    (pos added : Nat) (lines : List String) (r : String)
    (hr : r ∈ reqs) (hmiss : existing.contains r = false)
    (hlen : pos + added ≤ lines.length) :
    ("    " ++ r) ∈ insertMissing reqs existing pos added lines := by
  induction reqs generalizing added lines with
  | nil => cases hr
  | cons q qs ih =>
    rw [insertMissing]
    rcases List.mem_cons.mp hr with rfl | hr'
    · rw [if_neg (by rw [hmiss]; simp)]
      have hmem := mem_insertIdx_self lines (pos + added) ("    " ++ r) hlen
      exact (sublist_insertMissing qs existing pos (added + 1) _).subset hmem
    · by_cases hc : existing.contains q = true
      · rw [if_pos hc]
        exact ih added lines hr' hlen
      · rw [if_neg hc]
        refine ih (added + 1) _ hr' ?_
        rw [length_insertIdx_le lines (pos + added) _ hlen]
        omega

theorem mem_insertMissing_src {reqs existing : List String}
    {pos added : Nat} {lines : List String} {x : String}
    (h : x ∈ insertMissing reqs existing pos added lines) :
    x ∈ lines ∨ ∃ r ∈ reqs, x = "    " ++ r := by
  induction reqs generalizing added lines with
  | nil => rw [insertMissing] at h; exact Or.inl h
  | cons q qs ih =>
    rw [insertMissing] at h
    by_cases hc : existing.contains q = true
    · rw [if_pos hc] at h
      rcases ih h with h2 | ⟨r, hr, he⟩
      · exact Or.inl h2
      · exact Or.inr ⟨r, List.mem_cons_of_mem q hr, he⟩
    · rw [if_neg hc] at h
      rcases ih h with h2 | ⟨r, hr, he⟩
      · rcases mem_of_mem_insertIdx h2 with h3 | h3
        · exact Or.inl h3
        · exact Or.inr ⟨q, List.mem_cons_self q qs, h3⟩
      · exact Or.inr ⟨r, List.mem_cons_of_mem q hr, he⟩

/-- Cleanliness of an accumulated relative path: slashes are allowed, but
no backslash, line separator or quote occurs. -/
def relCleanB (rel : String) : Bool :=
  rel.data.all (fun c =>
    !(c = '\\' || c = '\n' || c = '\r' || c = '\x27' || c = '"'))

theorem relCleanB_spec {rel : String} (h : relCleanB rel = true) :
    ∀ c ∈ rel.data, c ≠ '\\' ∧ c ≠ '\n' ∧ c ≠ '\r' ∧ c ≠ '\x27' ∧ c ≠ '"' := by
  intro c hc
  have h2 := List.all_eq_true.mp h c hc
  simpa [and_assoc] using h2

theorem cleanNameB_relClean {s : String} (h : cleanNameB s = true) :
    relCleanB s = true := by
  rw [relCleanB, List.all_eq_true]
  intro c hc
  obtain ⟨-, h2, h3, h4, h5⟩ := (cleanNameB_spec h).2 c hc
  simp [h2, h3, h4, h5]

theorem relCleanB_append {rel n : String} (h1 : relCleanB rel = true)
    (h2 : cleanNameB n = true) : relCleanB (rel ++ "/" ++ n) = true := by
  rw [relCleanB, List.all_eq_true]
  intro c hc
  rw [data_append, data_append] at hc
  rcases List.mem_append.mp hc with hc2 | hc2
  · rcases List.mem_append.mp hc2 with hc3 | hc3
    · exact List.all_eq_true.mp h1 c hc3
    · have hcs : c = '/' := by simpa using hc3
      subst hcs
      decide
  · obtain ⟨-, h3, h4, h5, h6, h7⟩ := (cleanNameB_spec h2).2 c hc2
    simp [h3, h4, h5, h6, h7]

theorem cleanNameB_ne_nil {s : String} (h : cleanNameB s = true) :
    s.data ≠ [] := (cleanNameB_spec h).1

theorem cleanNameB_sepfree {s : String} (h : cleanNameB s = true) :
    ∀ c ∈ s.data, c ≠ '/' :=
  fun c hc => ((cleanNameB_spec h).2 c hc).1

theorem findEntryByName_of_nodup {t : List Entry} {n : String} {ds : List Entry}
    (hnd : (t.map Entry.nameOf).Nodup) (hmem : Entry.dir n ds ∈ t) :
    findEntryByName t n.data = some (Entry.dir n ds) := by
  induction t with
  | nil => cases hmem
  | cons e rest ih =>
    rw [List.map_cons, List.nodup_cons] at hnd
    obtain ⟨hnotin, hndrest⟩ := hnd
    rw [findEntryByName]
    rcases List.mem_cons.mp hmem with heq | hmem'
    · rw [← heq]
      simp
    · have hne : e.nameOf.data ≠ n.data := by
        intro hd
        have : e.nameOf = n := stringExt hd
        exact hnotin (this ▸ List.mem_map.mpr ⟨Entry.dir n ds, hmem', rfl⟩)
      rw [if_neg hne]
      exact ih hndrest hmem'

theorem resolveRel_cons {t : List Entry} {n : String} {ds : List Entry}
    (rest : List (List Char))
    (hnd : (t.map Entry.nameOf).Nodup) (hmem : Entry.dir n ds ∈ t)
    (hne : n.data ≠ []) :
    resolveRel t (n.data :: rest) = resolveRel ds rest := by
  obtain ⟨c, cd, hcd⟩ : ∃ c cd, n.data = c :: cd := by
    cases h : n.data with
    | nil => exact absurd h hne
    | cons c cd => exact ⟨c, cd, rfl⟩
  rw [hcd]
  rw [resolveRel]
  · rw [← hcd, findEntryByName_of_nodup hnd hmem]
  · exact fun h _ => absurd h (List.cons_ne_nil c cd)

theorem entryLine_good (t : List Entry) (rel : String)
    (hclean : relCleanB rel = true)
    (hres : resolveRel t (splitOnC '/' rel.data ++ [[]]) = true) :
    goodReq (fsExists t) (pubspecEntryLine rel) := by
  have hfwd : fwdSlash rel = rel :=
    fwdSlash_id (fun c hc => (relCleanB_spec hclean c hc).1)
  have hline : pubspecEntryLine rel =
      String.mk ('-' :: ' ' :: ("assets/".data ++ (rel.data ++ ['/']))) := by
    refine stringExt ?_
    unfold pubspecEntryLine
    rw [hfwd, data_append, data_append, mkData]
    rfl
  have hrel_chars : ∀ c ∈ "assets/".data ++ (rel.data ++ ['/']),
      c = '/' ∨ c ∈ rel.data ∨ c ∈ "assets/".data := by
    intro c hc
    rcases List.mem_append.mp hc with h1 | h1
    · exact Or.inr (Or.inr h1)
    · rcases List.mem_append.mp h1 with h2 | h2
      · exact Or.inr (Or.inl h2)
      · exact Or.inl (by simpa using h2)
  refine ⟨?_, ?_, ?_, ?_, ?_⟩
  · -- trim-stable
    rw [hline]
    unfold trimS
    rw [mkData]
    rw [show ('-' :: ' ' :: ("assets/".data ++ (rel.data ++ ['/']))) =
      '-' :: ((' ' :: ("assets/".data ++ rel.data)) ++ ['/']) from rfl]
    rw [trimChars_id (by decide) (by decide)]
  · -- starts with "- assets/"
    rw [hline]
    unfold startsWithS
    rw [mkData]
    rw [show ('-' :: ' ' :: ("assets/".data ++ (rel.data ++ ['/']))) =
      "- assets/".data ++ (rel.data ++ ['/']) from rfl]
    exact prefB_append_self _ _
  · -- more than two slash pieces
    rw [hline]
    unfold splitSlashS
    rw [mkData]
    rw [show ('-' :: ' ' :: ("assets/".data ++ (rel.data ++ ['/']))) =
      "- assets".data ++ '/' :: (rel.data ++ '/' :: []) from rfl]
    rw [splitOnC_append_sep, splitOnC_append_sep,
      splitOnC_sepfree (l := "- assets".data) (by decide)]
    have hpos : 0 < (splitOnC '/' rel.data).length :=
      List.length_pos.mpr (splitOnC_ne_nil '/' rel.data)
    simp only [List.map_append, List.length_append, List.length_map]
    simp [splitOnC]
    omega
  · -- the stripped path exists
    rw [hline]
    unfold stripEntryPath
    have hdrop : dropLeadDash (String.mk
        ('-' :: ' ' :: ("assets/".data ++ (rel.data ++ ['/'])))) =
        String.mk ("assets/".data ++ (rel.data ++ ['/'])) := rfl
    rw [hdrop]
    have hquotes : removeQuotesS (String.mk ("assets/".data ++ (rel.data ++ ['/']))) =
        String.mk ("assets/".data ++ (rel.data ++ ['/'])) := by
      unfold removeQuotesS
      rw [mkData]
      refine congrArg String.mk (List.filter_eq_self.mpr ?_)
      intro c hc
      rcases hrel_chars c hc with h | h | h
      · subst h; decide
      · obtain ⟨-, -, -, h4, h5⟩ := relCleanB_spec hclean c h
        simp [h4, h5]
      · fin_cases h <;> decide
    rw [hquotes]
    have htrim : trimS (String.mk ("assets/".data ++ (rel.data ++ ['/']))) =
        String.mk ("assets/".data ++ (rel.data ++ ['/'])) := by
      unfold trimS
      rw [mkData]
      rw [show ("assets/".data ++ (rel.data ++ ['/'])) =
        'a' :: (("ssets/".data ++ rel.data) ++ ['/']) from rfl]
      rw [trimChars_id (by decide) (by decide)]
    rw [htrim]
    unfold fsExists
    have hsplit : splitOnC '/' (String.mk ("assets/".data ++ (rel.data ++ ['/']))).data =
        "assets".data :: (splitOnC '/' rel.data ++ [[]]) := by
      rw [mkData]
      rw [show ("assets/".data ++ (rel.data ++ ['/'])) =
        "assets".data ++ '/' :: (rel.data ++ '/' :: []) from rfl]
      rw [splitOnC_append_sep, splitOnC_append_sep,
        splitOnC_sepfree (l := "assets".data) (by decide)]
      rfl
    rw [hsplit]
    show (if "assets".data = "assets".data then
      resolveRel t (splitOnC '/' rel.data ++ [[]]) else false) = true
    rw [if_pos rfl]
    exact hres
  · -- newline-free
    rw [hline]
    intro c hc
    rw [mkData] at hc
    rcases List.mem_cons.mp hc with rfl | hc2
    · decide
    rcases List.mem_cons.mp hc2 with rfl | hc3
    · decide
    rcases hrel_chars c hc3 with h | h | h
    · subst h; decide
    · exact (relCleanB_spec hclean c h).2.1
    · fin_cases h <;> decide

theorem scanChildren_good (cs : List Entry) (rel : String) :
    ∀ t : List Entry, relCleanB rel = true →
      (∀ n2 ds2, Entry.dir n2 ds2 ∈ cs →
        ∀ rest2, resolveRel t (splitOnC '/' rel.data ++ n2.data :: rest2) =
          resolveRel ds2 rest2) →
      validEntries cs = true →
      ∀ r ∈ scanChildren cs rel, goodReq (fsExists t) r := by
  induction cs, rel using scanChildren.induct with
  | case1 rel =>
    intro t _ _ _ r hr
    rw [scanChildren] at hr
    cases hr
  | case2 m rest rel ih =>
    intro t hc hch hv r hr
    rw [scanChildren] at hr
    exact ih t hc (fun n2 ds2 hm => hch n2 ds2 (List.mem_cons_of_mem _ hm))
      (validEntries_file hv).2 r hr
  | case3 n ds rest rel ihds ihrest =>
    intro t hc hch hv r hr
    obtain ⟨hn, hndds, hvds, hvrest⟩ := validEntries_dir hv
    rw [scanChildren] at hr
    have hsplit2 : splitOnC '/' (rel ++ "/" ++ n).data =
        splitOnC '/' rel.data ++ [n.data] := by
      rw [data_append, data_append, show "/".data = ['/'] from rfl]
      rw [List.append_assoc, List.singleton_append]
      rw [splitOnC_append_sep, splitOnC_sepfree (cleanNameB_sepfree hn)]
    rcases List.mem_append.mp hr with h1 | h1
    · by_cases hva : variantName n = true
      · rw [if_pos hva] at h1
        cases h1
      · rw [if_neg hva] at h1
        rcases List.mem_cons.mp h1 with rfl | h2
        · refine entryLine_good t (rel ++ "/" ++ n) (relCleanB_append hc hn) ?_
          rw [hsplit2, List.append_assoc, List.singleton_append]
          rw [hch n ds (List.mem_cons_self _ _) [[]]]
          rfl
        · refine ihds t (relCleanB_append hc hn) ?_ hvds r h2
          intro n2 ds2 hm rest2
          rw [hsplit2, List.append_assoc, List.singleton_append]
          rw [hch n ds (List.mem_cons_self _ _) (n2.data :: rest2)]
          exact resolveRel_cons rest2 hndds hm
            (cleanNameB_ne_nil (validEntries_of_mem hvds hm).1)
    · exact ihrest t hc (fun n2 ds2 hm => hch n2 ds2 (List.mem_cons_of_mem _ hm))
        hvrest r h1

theorem requiredAssets_good (t : List Entry) (hv : validTreeB t = true) :
    ∀ r ∈ requiredAssets t, goodReq (fsExists t) r := by
  rw [validTreeB, Bool.and_eq_true] at hv
  obtain ⟨hnd2, hve⟩ := hv
  have hnd := of_decide_eq_true hnd2
  suffices h : ∀ t2 : List Entry, (∀ e ∈ t2, e ∈ t) → validEntries t2 = true →
      ∀ r ∈ requiredAssets t2, goodReq (fsExists t) r from
    h t (fun e he => he) hve
  intro t2
  induction t2 with
  | nil =>
    intro _ _ r hr
    rw [requiredAssets] at hr
    cases hr
  | cons e rest ih =>
    intro hsub hv2 r hr
    cases e with
    | file m =>
      rw [requiredAssets] at hr
      exact ih (fun e2 he2 => hsub e2 (List.mem_cons_of_mem _ he2))
        (validEntries_file hv2).2 r hr
    | dir n cs =>
      rw [requiredAssets] at hr
      obtain ⟨hcn, hndcs, hvcs, hvrest⟩ := validEntries_dir hv2
      have hmem_t : Entry.dir n cs ∈ t := hsub _ (List.mem_cons_self _ _)
      have hresolve : ∀ rest2, resolveRel t (n.data :: rest2) = resolveRel cs rest2 :=
        fun rest2 => resolveRel_cons rest2 hnd hmem_t (cleanNameB_ne_nil hcn)
      have hsplitn : splitOnC '/' n.data = [n.data] :=
        splitOnC_sepfree (cleanNameB_sepfree hcn)
      rcases List.mem_append.mp hr with h1 | h1
      · rw [scanDirs] at h1
        rcases List.mem_cons.mp h1 with rfl | h2
        · refine entryLine_good t n (cleanNameB_relClean hcn) ?_
          rw [hsplitn, List.singleton_append, hresolve]
          rfl
        · refine scanChildren_good cs n t (cleanNameB_relClean hcn) ?_ hvcs r h2
          intro n2 ds2 hm rest2
          rw [hsplitn, List.singleton_append, hresolve]
          exact resolveRel_cons rest2 hndcs hm
            (cleanNameB_ne_nil (validEntries_of_mem hvcs hm).1)
      · exact ih (fun e2 he2 => hsub e2 (List.mem_cons_of_mem _ he2)) hvrest r h1

theorem trimS_spaces (r : String) : trimS ("    " ++ r) = trimS r := by
  unfold trimS
  rw [data_append]
  exact congrArg String.mk (trimChars_ws_head (by decide))

theorem ensure_decomp (lines0 : List String) :
    ∃ P fl Q asL R,
      (ensureAssets (ensureFlutter lines0)).1 = (P ++ fl :: Q ++ [asL]) ++ R ∧
      (ensureAssets (ensureFlutter lines0)).2 + 1 = (P ++ fl :: Q ++ [asL]).length ∧
      startsWithS fl "flutter:" = true ∧
      (∀ y ∈ P, startsWithS y "flutter:" = false) ∧
      isAssetsHeader asL = true ∧
      ∀ x ∈ (ensureAssets (ensureFlutter lines0)).1,
        x ∈ lines0 ∨ x = "" ∨ x = "flutter:" ∨ x = "  assets:" := by
  cases hef : findIdxO (fun l => startsWithS l "flutter:") lines0 with
  | some i =>
    have hef1 : ensureFlutter lines0 = (lines0, i) := by
      show (match findIdxO (fun l => startsWithS l "flutter:") lines0 with
        | some j => (lines0, j)
        | none => (lines0 ++ ["", "flutter:", "  assets:"], lines0.length + 1)) =
          (lines0, i)
      rw [hef]
    obtain ⟨P, fl, S, hdec, hlen, hPf, hflp⟩ := findIdxO_some_decomp hef
    have hdrop : lines0.drop (i + 1) = S := by
      rw [hdec, ← hlen,
        show P ++ fl :: S = (P ++ [fl]) ++ S by simp,
        show P.length + 1 = (P ++ [fl]).length by simp]
      exact List.drop_left _ _
    cases hea : findIdxO isAssetsHeader (lines0.drop (i + 1)) with
    | some k =>
      have hea1 : ensureAssets (lines0, i) = (lines0, i + 1 + k) := by
        show (match findIdxO isAssetsHeader (lines0.drop (i + 1)) with
          | some k2 => (lines0, i + 1 + k2)
          | none => (List.insertIdx (i + 1) "  assets:" lines0, i + 1)) =
            (lines0, i + 1 + k)
        rw [hea]
      rw [hdrop] at hea
      obtain ⟨Q, asL, R, hdec2, hlen2, hQf, hasp⟩ := findIdxO_some_decomp hea
      refine ⟨P, fl, Q, asL, R, ?_, ?_, hflp, hPf, hasp, ?_⟩
      · rw [hef1, hea1]
        show lines0 = (P ++ fl :: Q ++ [asL]) ++ R
        rw [hdec, hdec2]
        simp
      · rw [hef1, hea1]
        show i + 1 + k + 1 = (P ++ fl :: Q ++ [asL]).length
        rw [← hlen, ← hlen2]
        simp [List.length_append]
        omega
      · intro x hx
        rw [hef1, hea1] at hx
        exact Or.inl hx
    | none =>
      have hea1 : ensureAssets (lines0, i) =
          (List.insertIdx (i + 1) "  assets:" lines0, i + 1) := by
        show (match findIdxO isAssetsHeader (lines0.drop (i + 1)) with
          | some k2 => (lines0, i + 1 + k2)
          | none => (List.insertIdx (i + 1) "  assets:" lines0, i + 1)) =
            (List.insertIdx (i + 1) "  assets:" lines0, i + 1)
        rw [hea]
      have hins : List.insertIdx (i + 1) "  assets:" lines0 =
          P ++ fl :: "  assets:" :: S := by
        rw [hdec, ← hlen]
        exact insertIdx_middle P S fl _
      refine ⟨P, fl, [], "  assets:", S, ?_, ?_, hflp, hPf, by decide, ?_⟩
      · rw [hef1, hea1]
        show List.insertIdx (i + 1) "  assets:" lines0 =
          (P ++ fl :: [] ++ ["  assets:"]) ++ S
        rw [hins]
        simp
      · rw [hef1, hea1]
        show i + 1 + 1 = (P ++ fl :: [] ++ ["  assets:"]).length
        rw [← hlen]
        simp
      · intro x hx
        rw [hef1, hea1] at hx
        have hx2 : x ∈ List.insertIdx (i + 1) "  assets:" lines0 := hx
        rcases mem_of_mem_insertIdx hx2 with h | h
        · exact Or.inl h
        · exact Or.inr (Or.inr (Or.inr h))
  | none =>
    have hef1 : ensureFlutter lines0 =
        (lines0 ++ ["", "flutter:", "  assets:"], lines0.length + 1) := by
      show (match findIdxO (fun l => startsWithS l "flutter:") lines0 with
        | some j => (lines0, j)
        | none => (lines0 ++ ["", "flutter:", "  assets:"], lines0.length + 1)) =
          (lines0 ++ ["", "flutter:", "  assets:"], lines0.length + 1)
      rw [hef]
    have hdrop : (lines0 ++ ["", "flutter:", "  assets:"]).drop
        (lines0.length + 1 + 1) = ["  assets:"] := by
      rw [show lines0 ++ ["", "flutter:", "  assets:"] =
        (lines0 ++ ["", "flutter:"]) ++ ["  assets:"] by simp,
        show lines0.length + 1 + 1 = (lines0 ++ ["", "flutter:"]).length by simp]
      exact List.drop_left _ _
    have hfind : findIdxO isAssetsHeader
        ((lines0 ++ ["", "flutter:", "  assets:"]).drop (lines0.length + 1 + 1)) =
          some 0 := by
      rw [hdrop]
      decide
    have hea1 : ensureAssets (lines0 ++ ["", "flutter:", "  assets:"],
        lines0.length + 1) =
        (lines0 ++ ["", "flutter:", "  assets:"], lines0.length + 1 + 1 + 0) := by
      show (match findIdxO isAssetsHeader
          ((lines0 ++ ["", "flutter:", "  assets:"]).drop (lines0.length + 1 + 1)) with
        | some k2 => (lines0 ++ ["", "flutter:", "  assets:"],
            lines0.length + 1 + 1 + k2)
        | none => (List.insertIdx (lines0.length + 1 + 1) "  assets:"
            (lines0 ++ ["", "flutter:", "  assets:"]), lines0.length + 1 + 1)) =
          (lines0 ++ ["", "flutter:", "  assets:"], lines0.length + 1 + 1 + 0)
      rw [hfind]
    refine ⟨lines0 ++ [""], "flutter:", [], "  assets:", [], ?_, ?_, by decide,
      ?_, by decide, ?_⟩
    · rw [hef1, hea1]
      show lines0 ++ ["", "flutter:", "  assets:"] =
        ((lines0 ++ [""]) ++ "flutter:" :: [] ++ ["  assets:"]) ++ []
      simp
    · rw [hef1, hea1]
      show lines0.length + 1 + 1 + 0 + 1 =
        ((lines0 ++ [""]) ++ "flutter:" :: [] ++ ["  assets:"]).length
      simp
    · intro y hy
      rcases List.mem_append.mp hy with h | h
      · exact findIdxO_none_iff.mp hef y h
      · have he : y = "" := by simpa using h
        subst he
        decide
    · intro x hx
      rw [hef1, hea1] at hx
      have hx2 : x ∈ lines0 ++ ["", "flutter:", "  assets:"] := hx
      rcases List.mem_append.mp hx2 with h | h
      · exact Or.inl h
      · simp only [List.mem_cons, List.mem_singleton] at h
        rcases h with h | h | h
        · exact Or.inr (Or.inl h)
        · exact Or.inr (Or.inr (Or.inl h))
        · rcases h with h | h
          · exact Or.inr (Or.inr (Or.inr h))
          · cases h

theorem syncPubspecLines_noop (req : List String) (ex : String → Bool)
    (ls P2 : List String) (fl : String) (S2 : List String)
    (hshape : ls = P2 ++ fl :: S2)
    (hfl : startsWithS fl "flutter:" = true)
    (hP2 : ∀ y ∈ P2, startsWithS y "flutter:" = false)
    (hasL : ∃ a ∈ S2, isAssetsHeader a = true)
    (hpresent : ∀ r ∈ req, (ls.map trimS).contains r = true)
    (hkeep : ∀ l ∈ ls, keepLineB ex l = true) :
    syncPubspecLines req ex ls = ls := by
  have hfind : findIdxO (fun l => startsWithS l "flutter:") ls = some P2.length := by
    rw [hshape]
    exact findIdxO_append_first _ P2 S2 fl hP2 hfl
  have hef : ensureFlutter ls = (ls, P2.length) := by
    show (match findIdxO (fun l => startsWithS l "flutter:") ls with
      | some j => (ls, j)
      | none => (ls ++ ["", "flutter:", "  assets:"], ls.length + 1)) =
        (ls, P2.length)
    rw [hfind]
  have hdrop : ls.drop (P2.length + 1) = S2 := by
    rw [hshape, show P2 ++ fl :: S2 = (P2 ++ [fl]) ++ S2 by simp,
      show P2.length + 1 = (P2 ++ [fl]).length by simp]
    exact List.drop_left _ _
  obtain ⟨a, ha, hah⟩ := hasL
  obtain ⟨k, hk⟩ := findIdxO_isSome_of_mem ha hah
  have hfind2 : findIdxO isAssetsHeader (ls.drop (P2.length + 1)) = some k := by
    rw [hdrop]
    exact hk
  have hea : ensureAssets (ls, P2.length) = (ls, P2.length + 1 + k) := by
    show (match findIdxO isAssetsHeader (ls.drop (P2.length + 1)) with
      | some k2 => (ls, P2.length + 1 + k2)
      | none => (List.insertIdx (P2.length + 1) "  assets:" ls, P2.length + 1)) =
        (ls, P2.length + 1 + k)
    rw [hfind2]
  simp only [syncPubspecLines]
  rw [hef, hea]
  show pruneLines ex (insertMissing req (ls.map trimS) (P2.length + 1 + k + 1) 0 ls) = ls
  rw [insertMissing_all_present _ _ _ _ _ hpresent]
  exact List.filter_eq_self.mpr hkeep

theorem syncPubspecLines_idem (req : List String) (ex : String → Bool)
    (hreq : ∀ r ∈ req, goodReq ex r) (lines0 : List String) :
    syncPubspecLines req ex (syncPubspecLines req ex lines0) =
      syncPubspecLines req ex lines0 := by
  obtain ⟨P, fl, Q, asL, R, h1, h2, hfl, hPf, hasL, hsrc⟩ := ensure_decomp lines0
  have hle : (P ++ fl :: Q ++ [asL]).length ≤
      (ensureAssets (ensureFlutter lines0)).2 + 1 + 0 := by
    omega
  obtain ⟨R2, hins⟩ := insertMissing_prefix req
    (((P ++ fl :: Q ++ [asL]) ++ R).map trimS)
    ((ensureAssets (ensureFlutter lines0)).2 + 1) 0 (P ++ fl :: Q ++ [asL]) R hle
  have hout1 : syncPubspecLines req ex lines0 =
      ((P ++ fl :: Q ++ [asL]) ++ R2).filter (keepLineB ex) := by
    simp only [syncPubspecLines]
    rw [h1, hins]
    rfl
  have hkeep1 : ∀ x ∈ syncPubspecLines req ex lines0, keepLineB ex x = true := by
    intro x hx
    rw [hout1] at hx
    exact List.of_mem_filter hx
  have hshape1 : syncPubspecLines req ex lines0 =
      P.filter (keepLineB ex) ++ fl :: (Q ++ asL :: R2).filter (keepLineB ex) := by
    rw [hout1]
    rw [show (P ++ fl :: Q ++ [asL]) ++ R2 = P ++ fl :: (Q ++ asL :: R2) by simp]
    rw [List.filter_append, List.filter_cons_of_pos (keep_flutter_line hfl)]
  have hpresent : ∀ r ∈ req,
      ((syncPubspecLines req ex lines0).map trimS).contains r = true := by
    intro r hr
    have hg := hreq r hr
    apply List.elem_eq_true_of_mem
    by_cases hE : (((P ++ fl :: Q ++ [asL]) ++ R).map trimS).contains r = true
    · have hrE : r ∈ ((P ++ fl :: Q ++ [asL]) ++ R).map trimS :=
        List.mem_of_elem_eq_true hE
      obtain ⟨l, hl, htl⟩ := List.mem_map.mp hrE
      have hlin : l ∈ insertMissing req
          (((P ++ fl :: Q ++ [asL]) ++ R).map trimS)
          ((ensureAssets (ensureFlutter lines0)).2 + 1) 0
          ((P ++ fl :: Q ++ [asL]) ++ R) :=
        (sublist_insertMissing _ _ _ _ _).subset hl
      have hlout : l ∈ syncPubspecLines req ex lines0 := by
        rw [hout1, ← hins]
        exact List.mem_filter.mpr ⟨hlin, keepLineB_of_trim_good htl hg⟩
      exact List.mem_map.mpr ⟨l, hlout, htl⟩
    · have hmiss : (((P ++ fl :: Q ++ [asL]) ++ R).map trimS).contains r = false :=
        Bool.of_not_eq_true hE
      have hlen : (ensureAssets (ensureFlutter lines0)).2 + 1 + 0 ≤
          ((P ++ fl :: Q ++ [asL]) ++ R).length := by
        rw [List.length_append]
        omega
      have hlin := mem_insertMissing_of_missing req _ _ 0 _ r hr hmiss hlen
      have htl : trimS ("    " ++ r) = r := by
        rw [trimS_spaces]
        exact hg.1
      have hlout : ("    " ++ r) ∈ syncPubspecLines req ex lines0 := by
        rw [hout1, ← hins]
        exact List.mem_filter.mpr ⟨hlin, keepLineB_of_trim_good htl hg⟩
      exact List.mem_map.mpr ⟨_, hlout, htl⟩
  refine syncPubspecLines_noop req ex _ (P.filter (keepLineB ex)) fl
    ((Q ++ asL :: R2).filter (keepLineB ex)) hshape1 hfl ?_ ?_ hpresent hkeep1
  · intro y hy
    exact hPf y (List.mem_of_mem_filter hy)
  · exact ⟨asL, List.mem_filter.mpr ⟨by simp, keep_assets_line hasL⟩, hasL⟩

theorem splitOnC_pieces_sepfree (sep : Char) (l : List Char) :
    ∀ p ∈ splitOnC sep l, ∀ c ∈ p, c ≠ sep := by
  induction l with
  | nil =>
    intro p hp c hc
    simp [splitOnC] at hp
    subst hp
    cases hc
  | cons d rest ih =>
    intro p hp c hc
    rw [splitOnC] at hp
    by_cases hd : d = sep
    · rw [if_pos hd] at hp
      rcases List.mem_cons.mp hp with rfl | hp2
      · cases hc
      · exact ih p hp2 c hc
    · rw [if_neg hd] at hp
      cases hs : splitOnC sep rest with
      | nil => exact absurd hs (splitOnC_ne_nil sep rest)
      | cons s ss =>
        rw [hs] at hp
        rcases List.mem_cons.mp hp with rfl | hp2
        · rcases List.mem_cons.mp hc with rfl | hc2
          · exact hd
          · exact ih s (by rw [hs]; exact List.mem_cons_self s ss) c hc2
        · exact ih p (by rw [hs]; exact List.mem_cons_of_mem s hp2) c hc

theorem splitLinesS_newline_free (content : String) :
    ∀ l ∈ splitLinesS content, ∀ c ∈ l.data, c ≠ '\n' := by
  intro l hl c hc
  obtain ⟨p, hp, rfl⟩ := List.mem_map.mp hl
  exact splitOnC_pieces_sepfree '\n' content.data p hp c hc

theorem map_mk_data (ls : List String) : ls.map (String.mk ∘ String.data) = ls := by
  induction ls with
  | nil => rfl
  | cons a rest ih =>
    rw [List.map_cons, ih]
    exact congrArg (· :: rest) (stringEta a)

theorem splitLinesS_joinLinesS (ls : List String) (hne : ls ≠ [])
    (hfree : ∀ l ∈ ls, ∀ c ∈ l.data, c ≠ '\n') :
    splitLinesS (joinLinesS ls) = ls := by
  unfold splitLinesS joinLinesS
  rw [mkData]
  rw [splitOnC_joinWithC '\n' (ls.map String.data)
    (by simpa using hne)
    (by
      intro l hl c hc
      obtain ⟨s, hs, rfl⟩ := List.mem_map.mp hl
      exact hfree s hs c hc)]
  rw [List.map_map]
  exact map_mk_data ls

theorem syncPubspecLines_newline_free (req : List String) (ex : String → Bool)
    (hreq : ∀ r ∈ req, goodReq ex r)
    (lines0 : List String) (h0 : ∀ l ∈ lines0, ∀ c ∈ l.data, c ≠ '\n') :
    ∀ l ∈ syncPubspecLines req ex lines0, ∀ c ∈ l.data, c ≠ '\n' := by
  intro l hl
  simp only [syncPubspecLines] at hl
  have hl2 : l ∈ insertMissing req
      ((ensureAssets (ensureFlutter lines0)).1.map trimS)
      ((ensureAssets (ensureFlutter lines0)).2 + 1) 0
      (ensureAssets (ensureFlutter lines0)).1 := List.mem_of_mem_filter hl
  rcases mem_insertMissing_src hl2 with h | ⟨r, hr, rfl⟩
  · obtain ⟨P, fl, Q, asL, R, -, -, -, -, -, hsrc⟩ := ensure_decomp lines0
    rcases hsrc l h with h2 | h2 | h2 | h2
    · exact h0 l h2
    · subst h2
      decide
    · subst h2
      decide
    · subst h2
      decide
  · intro c hc
    rw [data_append] at hc
    rcases List.mem_append.mp hc with h2 | h2
    · have hall : ∀ d ∈ "    ".data, d ≠ '\n' := by decide
      exact hall c h2
    · exact (hreq r hr).2.2.2.2 c h2

theorem syncPubspecLines_ne_nil (req : List String) (ex : String → Bool)
    (lines0 : List String) : syncPubspecLines req ex lines0 ≠ [] := by
  obtain ⟨P, fl, Q, asL, R, h1, h2, hfl, hPf, hasL, hsrc⟩ := ensure_decomp lines0
  have hle : (P ++ fl :: Q ++ [asL]).length ≤
      (ensureAssets (ensureFlutter lines0)).2 + 1 + 0 := by
    omega
  obtain ⟨R2, hins⟩ := insertMissing_prefix req
    (((P ++ fl :: Q ++ [asL]) ++ R).map trimS)
    ((ensureAssets (ensureFlutter lines0)).2 + 1) 0 (P ++ fl :: Q ++ [asL]) R hle
  have hout1 : syncPubspecLines req ex lines0 =
      ((P ++ fl :: Q ++ [asL]) ++ R2).filter (keepLineB ex) := by
    simp only [syncPubspecLines]
    rw [h1, hins]
    rfl
  rw [hout1]
  intro hnil
  have hflmem : fl ∈ ((P ++ fl :: Q ++ [asL]) ++ R2).filter (keepLineB ex) :=
    List.mem_filter.mpr ⟨by simp, keep_flutter_line hfl⟩
  rw [hnil] at hflmem
  cases hflmem

theorem foldl_writeFile_of_mem (L d : List String) (h : ∀ f ∈ L, f ∈ d) :
    L.foldl writeFile d = d := by
  induction L with
  | nil => rfl
  | cons x xs ih =>
    rw [List.foldl_cons]
    have hx : writeFile d x = d := by
      unfold writeFile
      rw [if_pos (List.elem_eq_true_of_mem (h x (List.mem_cons_self x xs)))]
    rw [hx]
    exact ih (fun f hf => h f (List.mem_cons_of_mem x hf))

theorem outDirAfterPass_idem (initial : List String) (t : List Entry) :
    outDirAfterPass (outDirAfterPass initial t) t = outDirAfterPass initial t := by
  have hgen : ∀ f ∈ (rootDirsOf t).map (fun d => partFileNameOf d.nameOf) ++
      ["assets_app.dart"], (generatedFilesList t).contains f = true := by
    intro f hf
    apply List.elem_eq_true_of_mem
    rw [generatedFilesList]
    rcases List.mem_append.mp hf with h | h
    · exact List.mem_cons_of_mem _ h
    · have he : f = "assets_app.dart" := by simpa using h
      subst he
      exact List.mem_cons_self _ _
  have hmemD : ∀ f ∈ (rootDirsOf t).map (fun d => partFileNameOf d.nameOf) ++
      ["assets_app.dart"], f ∈ outDirAfterPass initial t := by
    intro f hf
    show f ∈ List.filter _ (afterWrites initial t)
    refine List.mem_filter.mpr ⟨?_, ?_⟩
    · exact (mem_foldl_writeFile _ _ _).mpr (Or.inr hf)
    · show (!(!((generatedFilesList t).contains f) && endsWithS f ".dart")) = true
      rw [hgen f hf]
      rfl
  show cleanupPass (afterWrites (outDirAfterPass initial t) t)
    (generatedFilesList t) = outDirAfterPass initial t
  have haw : afterWrites (outDirAfterPass initial t) t = outDirAfterPass initial t := by
    show ((rootDirsOf t).map (fun d => partFileNameOf d.nameOf) ++
      ["assets_app.dart"]).foldl writeFile (outDirAfterPass initial t) =
        outDirAfterPass initial t
    exact foldl_writeFile_of_mem _ _ hmemD
  rw [haw]
  refine List.filter_eq_self.mpr ?_
  intro f hf
  have hf2 : f ∈ List.filter
      (fun g => !(!((generatedFilesList t).contains g) && endsWithS g ".dart"))
      (afterWrites initial t) := hf
  exact (List.mem_filter.mp hf2).2

/-- Claim C4: a full sync pass is idempotent on an unchanged asset tree.
The generated `(fileName, content)` pairs are a function of the tree alone,
so the second pass rewrites the same files with the same bytes; the second
pass leaves the output-directory listing exactly as the first pass left it
(its cleanup deletes nothing); and re-running the pubspec synchronizer on
the manifest the first pass wrote returns byte-identical manifest content. -/
theorem c4_idempotent (t : List Entry) (content : String) (initial : List String)
    (hv : validTreeB t = true) :
    outDirAfterPass (outDirAfterPass initial t) t = outDirAfterPass initial t ∧
    syncPubspecYaml t (syncPubspecYaml t content) = syncPubspecYaml t content := by
  refine ⟨outDirAfterPass_idem initial t, ?_⟩
  unfold syncPubspecYaml
  have hreq := requiredAssets_good t hv
  rw [splitLinesS_joinLinesS _
    (syncPubspecLines_ne_nil _ _ _)
    (syncPubspecLines_newline_free _ _ hreq _ (splitLinesS_newline_free content))]
  rw [syncPubspecLines_idem _ _ hreq]

/-- Witness for C4 at a concrete tree, pubspec and output directory. -/
theorem c4_witness :
    validTreeB [Entry.dir "icons" [Entry.file "home.png"]] = true ∧
    (outDirAfterPass (outDirAfterPass ["old.dart", "keep.txt"]
        [Entry.dir "icons" [Entry.file "home.png"]])
        [Entry.dir "icons" [Entry.file "home.png"]] =
      outDirAfterPass ["old.dart", "keep.txt"]
        [Entry.dir "icons" [Entry.file "home.png"]] ∧
    syncPubspecYaml [Entry.dir "icons" [Entry.file "home.png"]]
        (syncPubspecYaml [Entry.dir "icons" [Entry.file "home.png"]]
          "name: app") =
      syncPubspecYaml [Entry.dir "icons" [Entry.file "home.png"]]
        "name: app") :=
  ⟨by simp [validTreeB, validEntries]; decide,
    c4_idempotent [Entry.dir "icons" [Entry.file "home.png"]] "name: app"
      ["old.dart", "keep.txt"] (by simp [validTreeB, validEntries]; decide)⟩
